import Mathlib

/-!
# Verification of the page-number sequence inference engine

A shallow embedding of `filterpagenumbers.py` (the core of the
clean-pdf-extract repository) together with proofs about it.

Modelling conventions:
* Python strings are Lean `String`s; string indices (as used in match
  spans and slices) count characters, matching Python code points.
* Python `float` arithmetic on page-length estimates is modelled by
  exact rational arithmetic (`ℚ`); all quantities involved are ratios
  of machine integers.
* The regex character class `\s` is modelled as the ASCII whitespace
  characters Python's `re` matches on typical input, and `\d` as the
  ASCII digits `0`-`9`.
* Fallible Python code (raising exceptions) is modelled with
  `Except PyErr`; `PyErr` names the exception classes the module can
  raise.
-/

/-- Exceptions the module can raise: `statistics.StatisticsError`
(from `median` on empty data), `NameError` (from evaluating an unbound
name in an f-string), and `IndexError` (from an out-of-range list
subscript). -/
inductive PyErr where
  | statisticsError
  | nameError
  | indexError
deriving DecidableEq

deriving instance DecidableEq for Except

/-- The `Candidate` class of `filterpagenumbers.py`: a potential page
number.  `span = none` corresponds to Python `span=None` (the default
of `Candidate.__init__`); otherwise the pair holds character offsets
into `line`.  `lineIndex` is an integer because `find_page_number`
constructs candidates at arbitrary integer indices. -/
structure Candidate where
  number : ℕ
  line : String
  lineIndex : ℤ
  span : Option (ℕ × ℕ)
deriving DecidableEq

/-- Default candidate used with `List.getD`. -/
def noCandidate : Candidate := ⟨0, "", 0, none⟩

/-- The characters matched by the regex class `\s`. -/
def isSpaceChar (c : Char) : Bool :=
  c = ' ' ∨ c = '\t' ∨ c = '\n' ∨ c = '\r' ∨ c = '\x0b' ∨ c = '\x0c'

/-- Value of a string of ASCII digits, as computed by Python `int`. -/
def digitsToNat (ds : List Char) : ℕ :=
  ds.foldl (fun a c => 10 * a + (c.toNat - '0'.toNat)) 0

/-- Decimal digit string of a number, as produced by Python `str`. -/
def digitsOf (n : ℕ) : List Char :=
  (Nat.repr n).data

/-- Model of `NUMBER_ONLY_RE.match`: the whole line is blank space, a
digit group, and blank space (regex `^\s*(\d+)\s*$`).  Returns the
value of the digit group.  The greedy regex is deterministic here
because the character classes involved are disjoint. -/
def matchNumberOnly (cs : List Char) : Option ℕ :=
  let r1 := cs.dropWhile isSpaceChar
  let ds := r1.takeWhile Char.isDigit
  let r2 := (r1.drop ds.length).dropWhile isSpaceChar
  if ds ≠ [] ∧ r2 = [] then some (digitsToNat ds) else none

/-- Model of `DASHED_NUMBER_RE.match`: regex
`^\s*-+\s*(\d+)\s*-+\s*$`.  Returns the value of the digit group. -/
def matchDashedNumber (cs : List Char) : Option ℕ :=
  let r1 := cs.dropWhile isSpaceChar
  let d1 := r1.takeWhile (fun c => c = '-')
  let r2 := (r1.drop d1.length).dropWhile isSpaceChar
  let ds := r2.takeWhile Char.isDigit
  let r3 := (r2.drop ds.length).dropWhile isSpaceChar
  let d2 := r3.takeWhile (fun c => c = '-')
  let r4 := (r3.drop d2.length).dropWhile isSpaceChar
  if d1 ≠ [] ∧ ds ≠ [] ∧ d2 ≠ [] ∧ r4 = [] then some (digitsToNat ds) else none

/-- The two patterns tried in order by `page_number_candidates`; the
first successful pattern wins. -/
def matchPageNumberLine (line : String) : Option ℕ :=
  match matchNumberOnly line.data with
  | some n => some n
  | none => matchDashedNumber line.data

/-- `page_number_candidates`, processing lines from index `i` on. -/
def pageNumberCandidatesFrom : ℤ → List String → List Candidate
  | _, [] => []
  | i, line :: rest =>
    match matchPageNumberLine line with
    | some n => ⟨n, line, i, none⟩ :: pageNumberCandidatesFrom (i + 1) rest
    | none => pageNumberCandidatesFrom (i + 1) rest

/-- `page_number_candidates(lines)`: scan all lines, creating at most
one `Candidate` per line, with the default `span=None`. -/
def page_number_candidates (lines : List String) : List Candidate :=
  pageNumberCandidatesFrom 0 lines

/-! ## Longest increasing subsequence (`longest_increasing_subsequence`) -/

/-- State of the main loop of `longest_increasing_subsequence`:
the arrays `min_idx` and `pred` and the running `max_len`. -/
structure LISState where
  minIdx : List ℕ
  pred : List ℕ
  maxLen : ℕ
deriving DecidableEq

/-- The binary search inside `longest_increasing_subsequence`:
searches for the largest positive `j ≤ max_len` such that
`seq[min_idx[j]] < seq[i]`, returning one more than it (the Python
`while lo < hi` loop; `mid = lo + int((hi-lo)/2)`). -/
def lisSearchGo (seq : List ℤ) (minIdx : List ℕ) (x : ℤ) :
    ℕ → ℕ → ℕ → ℕ
  | 0, lo, _ => lo
  | fuel + 1, lo, hi =>
    if lo < hi then
      let mid := lo + (hi - lo) / 2
      if seq.getD (minIdx.getD mid 0) 0 < x then
        lisSearchGo seq minIdx x fuel (mid + 1) hi
      else
        lisSearchGo seq minIdx x fuel lo mid
    else lo

/-- The binary search, entered with enough fuel for the `while`
loop: `hi - lo` strictly decreases at every iteration, so `hi - lo`
iterations always suffice and the fuel cutoff is never reached. -/
def lisSearch (seq : List ℤ) (minIdx : List ℕ) (x : ℤ) (lo hi : ℕ) : ℕ :=
  lisSearchGo seq minIdx x (hi - lo) lo hi

/-- One iteration of the main `for i in range(0, len(seq))` loop of
`longest_increasing_subsequence`: `pred[i] = min_idx[new_len-1]`,
`min_idx[new_len] = i`, and `max_len` is raised to `new_len` if that
is larger. -/
def lisStep (seq : List ℤ) (st : LISState) (i : ℕ) : LISState :=
  let newLen := lisSearch seq st.minIdx (seq.getD i 0) 1 (st.maxLen + 1)
  { minIdx := st.minIdx.set newLen i
    pred := st.pred.set i (st.minIdx.getD (newLen - 1) 0)
    maxLen := if newLen > st.maxLen then newLen else st.maxLen }

/-- The main loop of `longest_increasing_subsequence`, starting from
`min_idx = [0]*(len(seq)+1)`, `pred = [0]*len(seq)`, `max_len = 0`. -/
def lisLoop (seq : List ℤ) : LISState :=
  (List.range seq.length).foldl (lisStep seq)
    ⟨List.replicate (seq.length + 1) 0, List.replicate seq.length 0, 0⟩

/-- The reconstruction loop of `longest_increasing_subsequence`: walk
`pred` backwards `m` times from `k`, collecting `seq[k]` values. -/
def lisReconstruct (seq : List ℤ) (pred : List ℕ) : ℕ → ℕ → List ℤ
  | 0, _ => []
  | m + 1, k => lisReconstruct seq pred m (pred.getD k 0) ++ [seq.getD k 0]

/-- `longest_increasing_subsequence(seq)`. -/
def longest_increasing_subsequence (seq : List ℤ) : List ℤ :=
  let st := lisLoop seq
  lisReconstruct seq st.pred st.maxLen (st.minIdx.getD st.maxLen 0)

/-! ## Sequence enumeration (`_subsequences`, `candidate_sequences`) -/

/-- The candidate map built by `candidate_sequences`: candidates
grouped by number, preserving list order (a `defaultdict(list)` filled
by appending). -/
def candidateMapOf (candidates : List Candidate) (n : ℤ) : List Candidate :=
  candidates.filter (fun c => (c.number : ℤ) == n)

/-- `_subsequences(prev, seq, candidate_map)`: all ways of picking one
candidate per number of `seq`, each picked candidate's line index
strictly above the previous pick's. -/
def subsequencesFrom (cmap : ℤ → List Candidate) :
    Option Candidate → List ℤ → List (List Candidate)
  | _, [] => [[]]
  | prev, first :: rest =>
    (cmap first).flatMap (fun c =>
      if (match prev with
          | none => true
          | some p => decide (p.lineIndex < c.lineIndex)) then
        (subsequencesFrom cmap (some c) rest).map (fun s => c :: s)
      else [])

/-- `candidate_sequences(sequence, candidates)`. -/
def candidate_sequences (sequence : List ℤ) (candidates : List Candidate) :
    List (List Candidate) :=
  subsequencesFrom (candidateMapOf candidates) none sequence

/-! ## Page length estimation (`avg_page_len`, `estimate_page_length`) -/

/-- `pairwise(iterable)`: consecutive pairs. -/
def pairsOf {α : Type} (l : List α) : List (α × α) :=
  l.zip l.tail

/-- `avg_page_len(prev, curr)`: line difference over page-number
difference.  The Python function asserts `prev.number < curr.number`;
under that precondition the rational division below agrees with the
Python float division's exact value. -/
def avg_page_len (prev curr : Candidate) : ℚ :=
  ((curr.lineIndex : ℚ) - (prev.lineIndex : ℚ)) /
    ((curr.number : ℚ) - (prev.number : ℚ))

/-- Insertion into a sorted list, for the model of `sorted`. -/
def insertOrdered (x : ℚ) : List ℚ → List ℚ
  | [] => [x]
  | y :: ys => if x ≤ y then x :: y :: ys else y :: insertOrdered x ys

/-- Model of Python `sorted` on rationals.  `statistics.median` only
depends on the multiset of values, so any sorting algorithm gives the
same median. -/
def pySorted : List ℚ → List ℚ
  | [] => []
  | x :: xs => insertOrdered x (pySorted xs)

/-- `statistics.median`: raises `StatisticsError` on empty data,
returns the middle element of the sorted data for odd length and the
mean of the two middle elements for even length. -/
def median (xs : List ℚ) : Except PyErr ℚ :=
  let n := xs.length
  if n = 0 then .error .statisticsError
  else
    let s := pySorted xs
    if n % 2 = 1 then .ok (s.getD (n / 2) 0)
    else .ok ((s.getD (n / 2 - 1) 0 + s.getD (n / 2) 0) / 2)

/-- The `estimates` list built by `estimate_page_length`: one median
of pairwise `avg_page_len` values per sequence; the first failing
`median` call aborts the loop. -/
def perSequenceEstimates : List (List Candidate) → Except PyErr (List ℚ)
  | [] => .ok []
  | s :: rest =>
    match median ((pairsOf s).map (fun pc => avg_page_len pc.1 pc.2)) with
    | .error e => .error e
    | .ok m =>
      match perSequenceEstimates rest with
      | .error e => .error e
      | .ok ms => .ok (m :: ms)

/-- `estimate_page_length(sequences)`: the median over sequences of
the median of the per-pair `avg_page_len` values. -/
def estimate_page_length (sequences : List (List Candidate)) : Except PyErr ℚ :=
  match perSequenceEstimates sequences with
  | .error e => .error e
  | .ok estimates => median estimates

/-! ## Plausibility trimming (`plausible_page_number_pair`, `trim_sequence`) -/

/-- `plausible_page_number_pair(prev, curr, page_length, args)`. -/
def plausible_page_number_pair (maxGap : ℕ) (pageLength : ℚ)
    (prev curr : Candidate) : Bool :=
  if curr.number > prev.number + maxGap then false
  else if 20 * avg_page_len prev curr < pageLength then false
  else true

/-- Position (0-based) of the first implausible consecutive pair, if
any; `trim_sequence` enumerates pairs from 1, which is this value plus
one. -/
def firstBad (maxGap : ℕ) (pageLength : ℚ) : List Candidate → Option ℕ
  | prev :: curr :: rest =>
    if plausible_page_number_pair maxGap pageLength prev curr then
      (firstBad maxGap pageLength (curr :: rest)).map (· + 1)
    else some 0
  | _ => none

/-- `trim_sequence(sequence, page_length, args)`: if a first
implausible pair exists at (1-based) position `i`, keep the longer of
`sequence[:i]` and the recursively trimmed `sequence[i:]` (ties going
to the trimmed tail); otherwise return the sequence unchanged. -/
def trimGo (maxGap : ℕ) (pageLength : ℚ) : ℕ → List Candidate → List Candidate
  | 0, sequence => sequence
  | fuel + 1, sequence =>
    if sequence.length < 2 then sequence
    else
      match firstBad maxGap pageLength sequence with
      | none => sequence
      | some m =>
        let start := sequence.take (m + 1)
        let tail := trimGo maxGap pageLength fuel (sequence.drop (m + 1))
        if start.length > tail.length then start else tail

/-- `trim_sequence(sequence, page_length, args)` enters the recursion
with fuel `sequence.length`; every recursive call drops at least one
element, so the fuel never runs out (`trimGo_congr`). -/
def trim_sequence (maxGap : ℕ) (pageLength : ℚ) (sequence : List Candidate) :
    List Candidate :=
  trimGo maxGap pageLength sequence.length sequence

/-! ## Sequence selection (`select_best_sequence`) -/

/-- The score of one sequence in `select_best_sequence`: for every
consecutive pair, `ratio` if `ratio < 1.0` else `1.0/ratio`, where
`ratio = avg_page_len / page_length`. -/
def sequenceScore (pageLength : ℚ) (s : List Candidate) : ℚ :=
  (pairsOf s).foldl
    (fun acc pc =>
      let ratio := avg_page_len pc.1 pc.2 / pageLength
      acc + (if ratio < 1 then ratio else 1 / ratio)) 0

/-- First entry of a scored list attaining the maximal score.  Python
sorts the `(score, sequence)` pairs descending (a stable sort) and
takes element 0; on a tie of scores Python falls back to comparing the
sequences themselves, a tie-break the specification declares
implementation-defined.  This model keeps the earliest maximal-score
entry; it agrees with Python whenever the maximal score is attained
once. -/
def pickFirstMax : List (ℚ × List Candidate) → Option (ℚ × List Candidate)
  | [] => none
  | x :: rest => some (rest.foldl (fun best y => if best.1 < y.1 then y else best) x)

/-- `select_best_sequence(sequences, page_length)`: `scored[0][1]`
after the reverse sort; subscripting an empty list raises
`IndexError`. -/
def select_best_sequence (sequences : List (List Candidate)) (pageLength : ℚ) :
    Except PyErr (List Candidate) :=
  match pickFirstMax (sequences.map (fun s => (sequenceScore pageLength s, s))) with
  | some best => .ok best.2
  | none => .error .indexError

/-! ## Gap repair (`line_has_page_number`, `find_page_number`, `repair_sequence`) -/

/-- Model of the `re.search` in `line_has_page_number`: the pattern
`^\s*(?:-+\s*)?(N)` for the decimal digit string `N` of `number`.
Anchored at the line start, it skips blank space, optionally one or
more dashes followed by blank space, and then requires the digits of
`number` as a literal prefix of the remainder.  Returns the end offset
of the whole match; the character classes are disjoint, so greedy
matching is deterministic. -/
def looseMatchEnd (number : ℕ) (cs : List Char) : Option ℕ :=
  let r1 := cs.dropWhile isSpaceChar
  let dashes := r1.takeWhile (fun c => c = '-')
  let r2 :=
    if dashes = [] then r1
    else (r1.drop dashes.length).dropWhile isSpaceChar
  if (digitsOf number).isPrefixOf r2 then
    some (cs.length - r2.length + (digitsOf number).length)
  else none

/-- `line_has_page_number(line, number)`: the span `m.span()` of the
match, if any.  The whole match starts at offset 0 (the pattern is
anchored), so the span is `(0, end)`. -/
def line_has_page_number (line : String) (number : ℕ) : Option (ℕ × ℕ) :=
  (looseMatchEnd number line.data).map (fun e => (0, e))

/-- Python list subscript `lines[i]`: negative indices wrap once;
anything else out of range raises `IndexError`. -/
def pyGetLine (lines : List String) (i : ℤ) : Except PyErr String :=
  let n : ℤ := lines.length
  let j := if i < 0 then i + n else i
  if 0 ≤ j ∧ j < n then .ok (lines.getD j.toNat "") else .error .indexError

/-- One subscript-and-match step of `find_page_number`: fetch
`lines[idx]` (propagating `IndexError`) and run
`line_has_page_number` on it, keeping the span and the line text. -/
def checkLine (lines : List String) (idx : ℤ) (number : ℕ) :
    Except PyErr (Option ((ℕ × ℕ) × String)) :=
  match pyGetLine lines idx with
  | .error e => .error e
  | .ok line => .ok ((line_has_page_number line number).map (fun sp => (sp, line)))

/-- The `while` loop of `find_page_number` at a given `distance`: the
loop continues while `start_line-distance >= min_line or
start_line+distance <= max_line`, checks the lower index first (when
`>= min_line`), then the upper (when `<= max_line` and the lower had
no match), and returns a `Candidate` carrying the match span on the
first match. -/
def findPageNumberGo (number : ℕ) (startL minL maxL : ℤ)
    (lines : List String) : ℕ → ℕ → Except PyErr (Option Candidate)
  | 0, _ => .ok none
  | fuel + 1, distance =>
    if minL ≤ startL - (distance : ℤ) ∨ startL + (distance : ℤ) ≤ maxL then
      match (if minL ≤ startL - (distance : ℤ) then
              checkLine lines (startL - (distance : ℤ)) number
            else .ok none) with
      | .error e => .error e
      | .ok (some m) => .ok (some ⟨number, m.2, startL - (distance : ℤ), some m.1⟩)
      | .ok none =>
        match (if startL + (distance : ℤ) ≤ maxL then
                checkLine lines (startL + (distance : ℤ)) number
              else .ok none) with
        | .error e => .error e
        | .ok (some m) => .ok (some ⟨number, m.2, startL + (distance : ℤ), some m.1⟩)
        | .ok none => findPageNumberGo number startL minL maxL lines fuel (distance + 1)
    else .ok none

/-- `find_page_number(number, start_line, min_line, max_line, lines)`:
the loop entered at distance 0 with enough fuel; the loop condition
fails for every distance above
`max(start_line - min_line, max_line - start_line)`, so the fuel
cutoff is never reached (`findPageNumberGo_congr`). -/
def find_page_number (number : ℕ) (startL minL maxL : ℤ)
    (lines : List String) : Except PyErr (Option Candidate) :=
  findPageNumberGo number startL minL maxL lines
    ((max (startL - minL) (maxL - startL)).toNat + 1) 0

/-- Python `int()` on a rational value: truncation toward zero. -/
def pyInt (q : ℚ) : ℤ :=
  if 0 ≤ q then ⌊q⌋ else ⌈q⌉

/-- `start_line` as computed in `repair_sequence`:
`prev.line_index + (number - prev.number) * page_length`. -/
def repairStartLine (prev : Candidate) (number : ℕ) (pageLength : ℚ) : ℚ :=
  (prev.lineIndex : ℚ) + ((number : ℚ) - (prev.number : ℚ)) * pageLength

/-- `min_line` as computed in `repair_sequence`:
`max(prev.line_index+1, start_line-page_length)`. -/
def repairMinLine (prev : Candidate) (startLine pageLength : ℚ) : ℚ :=
  max ((prev.lineIndex : ℚ) + 1) (startLine - pageLength)

/-- `max_line` as computed in `repair_sequence`:
`min(curr.line_index-1, start_line+page_length)`. -/
def repairMaxLine (curr : Candidate) (startLine pageLength : ℚ) : ℚ :=
  min ((curr.lineIndex : ℚ) - 1) (startLine + pageLength)

/-- The body of the `for number in missing` loop of
`repair_sequence`: search for one missing number and append the new
candidate to the accumulator when found; a number with no match is
skipped. -/
def repairGapStep (pageLength : ℚ) (lines : List String) (prev curr : Candidate)
    (acc : List Candidate) (number : ℕ) : Except PyErr (List Candidate) :=
  let s := repairStartLine prev number pageLength
  let mn := repairMinLine prev s pageLength
  let mx := repairMaxLine curr s pageLength
  match find_page_number number (pyInt s) (pyInt mn) (pyInt mx) lines with
  | .error e => .error e
  | .ok (some c) => .ok (acc ++ [c])
  | .ok none => .ok acc

/-- The `for number in missing` loop of `repair_sequence`, threading
the accumulated list of found candidates. -/
def repairNumbers (pageLength : ℚ) (lines : List String) (prev curr : Candidate) :
    List Candidate → List ℕ → Except PyErr (List Candidate)
  | acc, [] => .ok acc
  | acc, n :: rest =>
    match repairGapStep pageLength lines prev curr acc n with
    | .error e => .error e
    | .ok acc2 => repairNumbers pageLength lines prev curr acc2 rest

/-- Repairs attempted between one consecutive pair of
`repair_sequence`: `missing = range(prev.number+1, curr.number)`; a
gap larger than `max_gap` is logged and skipped wholesale. -/
def repairGap (maxGap : ℕ) (pageLength : ℚ) (lines : List String)
    (prev curr : Candidate) : Except PyErr (List Candidate) :=
  let missing := List.range' (prev.number + 1) (curr.number - prev.number - 1)
  if missing.length > maxGap then .ok []
  else repairNumbers pageLength lines prev curr [] missing

/-- The pairwise loop of `repair_sequence`: each `prev` is emitted,
followed by any candidates found for the numbers missing before
`curr`; the final element is emitted after the loop. -/
def repairFrom (maxGap : ℕ) (pageLength : ℚ) (lines : List String) :
    Candidate → List Candidate → Except PyErr (List Candidate)
  | last, [] => .ok [last]
  | prev, curr :: rest =>
    match repairGap maxGap pageLength lines prev curr with
    | .error e => .error e
    | .ok found =>
      match repairFrom maxGap pageLength lines curr rest with
      | .error e => .error e
      | .ok tail => .ok (prev :: (found ++ tail))

/-- `repair_sequence(sequence, lines, page_length, args)`: sequences
of fewer than two candidates are returned unchanged. -/
def repair_sequence (maxGap : ℕ) (pageLength : ℚ) (lines : List String)
    (sequence : List Candidate) : Except PyErr (List Candidate) :=
  match sequence with
  | [] => .ok []
  | [c] => .ok [c]
  | a :: b :: rest => repairFrom maxGap pageLength lines a (b :: rest)

/-! ## Putting a pass together (`make_page_number_sequence`) -/

/-- `make_page_number_sequence(candidates, args)`.  The warning
emitted when more than 100 candidate sequences exist interpolates the
name `fn` into its message; `fn` is not bound in that scope (it is a
local of `main` and a parameter of `process_page_numbers`), so
evaluating the f-string raises `NameError` there. -/
def make_page_number_sequence (maxGap : ℕ) (candidates : List Candidate) :
    Except PyErr (List Candidate × ℚ) :=
  let lis := longest_increasing_subsequence (candidates.map (fun c => (c.number : ℤ)))
  let filtered := candidates.filter (fun c => lis.contains (c.number : ℤ))
  let sequences := candidate_sequences lis filtered
  if sequences.length > 100 then
    .error .nameError
  else
    match estimate_page_length sequences with
    | .error e => .error e
    | .ok pageLength =>
      let trimmed := sequences.map (fun s => trim_sequence maxGap pageLength s)
      match select_best_sequence trimmed pageLength with
      | .error e => .error e
      | .ok sequence => .ok (sequence, pageLength)

/-! ## Rendering (`Candidate.marked_line`, `Candidate.line_without_page_number`,
the output loop of `process_page_numbers`) -/

/-- `Candidate.marked_line(tag='pagenumber')`. -/
def marked_line (c : Candidate) : String :=
  match c.span with
  | none => "<pagenumber>" ++ c.line ++ "</pagenumber>"
  | some (s, e) =>
    c.line.take s ++ "<pagenumber>" ++ ((c.line.drop s).take (e - s)) ++
      "</pagenumber>" ++ c.line.drop e

/-- `Candidate.line_without_page_number()`: Python returns `None` when
there is no span, else the line with the span sliced out. -/
def line_without_page_number (c : Candidate) : Option String :=
  match c.span with
  | none => none
  | some (s, e) => some (c.line.take s ++ c.line.drop e)

/-- The dictionary `candidate_by_line_index` built by
`process_page_numbers`; on duplicate line indices the later candidate
wins, as in a Python dict comprehension. -/
def candidateAtLine (sequence : List Candidate) (i : ℤ) : Option Candidate :=
  sequence.reverse.find? (fun c => c.lineIndex == i)

/-- Output produced for one input line by `process_page_numbers`: the
line itself if it carries no candidate of the final sequence;
otherwise, in mark mode the marked line, and in default mode the line
with the span removed - kept only when that remainder is a non-empty
string (Python's `elif c.line_without_page_number():` truthiness
drops both `None` and the empty string). -/
def renderLine (mark : Bool) (c? : Option Candidate) (line : String) : List String :=
  match c? with
  | none => [line]
  | some c =>
    if mark then [marked_line c]
    else
      match line_without_page_number c with
      | some s => if s = "" then [] else [s]
      | none => []

/-- The output loop of `process_page_numbers` from line index `i`. -/
def renderFrom (mark : Bool) (sequence : List Candidate) :
    ℤ → List String → List String
  | _, [] => []
  | i, line :: rest =>
    renderLine mark (candidateAtLine sequence i) line ++
      renderFrom mark sequence (i + 1) rest

/-- All lines printed by the output loop of `process_page_numbers`. -/
def render (mark : Bool) (lines : List String) (sequence : List Candidate) :
    List String :=
  renderFrom mark sequence 0 lines

/-- `process_page_numbers(fn, args)` on the lines of the input file:
extract candidates, build a sequence and page-length estimate, repair
gaps with the looser matching criterion, rebuild, and render. -/
def process_page_numbers (maxGap : ℕ) (mark : Bool) (lines : List String) :
    Except PyErr (List String) :=
  match make_page_number_sequence maxGap (page_number_candidates lines) with
  | .error e => .error e
  | .ok (sequence, pageLength) =>
    match repair_sequence maxGap pageLength lines sequence with
    | .error e => .error e
    | .ok repaired =>
      match make_page_number_sequence maxGap repaired with
      | .error e => .error e
      | .ok (sequence2, _) => .ok (render mark lines sequence2)

/-! # Proofs

## Candidate spans: extraction versus repair -/

lemma pageNumberCandidatesFrom_span (lines : List String) :
    ∀ (i : ℤ), ∀ c ∈ pageNumberCandidatesFrom i lines, c.span = none := by
  induction lines with
  | nil => intro i c hc; simp [pageNumberCandidatesFrom] at hc
  | cons line rest ih =>
    intro i c hc
    unfold pageNumberCandidatesFrom at hc
    cases h : matchPageNumberLine line with
    | some n =>
      rw [h] at hc
      rcases List.mem_cons.mp hc with rfl | hc
      · rfl
      · exact ih (i + 1) c hc
    | none =>
      rw [h] at hc
      exact ih (i + 1) c hc

lemma findPageNumberGo_span (number : ℕ) (startL minL maxL : ℤ)
    (lines : List String) :
    ∀ (fuel distance : ℕ) (c : Candidate),
      findPageNumberGo number startL minL maxL lines fuel distance =
        .ok (some c) →
      ∃ sp, c.span = some sp := by
  intro fuel
  induction fuel with
  | zero =>
    intro d c h
    exact absurd h (by simp [findPageNumberGo])
  | succ n ihf =>
    intro d c h
    rw [findPageNumberGo] at h
    split at h
    · split at h
      · exact absurd h (by simp)
      · simp only [Except.ok.injEq, Option.some.injEq] at h
        subst h
        exact ⟨_, rfl⟩
      · split at h
        · exact absurd h (by simp)
        · simp only [Except.ok.injEq, Option.some.injEq] at h
          subst h
          exact ⟨_, rfl⟩
        · exact ihf (d + 1) c h
    · exact absurd h (by simp)

lemma find_page_number_span (number : ℕ) (startL minL maxL : ℤ)
    (lines : List String) (c : Candidate)
    (h : find_page_number number startL minL maxL lines = .ok (some c)) :
    ∃ sp, c.span = some sp :=
  findPageNumberGo_span number startL minL maxL lines _ 0 c h

lemma repairGapStep_mem (pageLength : ℚ) (lines : List String)
    (prev curr : Candidate) (acc : List Candidate) (n : ℕ)
    (acc2 : List Candidate)
    (h : repairGapStep pageLength lines prev curr acc n = .ok acc2) :
    ∀ c ∈ acc2, c ∈ acc ∨ ∃ sp, c.span = some sp := by
  unfold repairGapStep at h
  dsimp only at h
  split at h
  · exact absurd h (by simp)
  · rcases Except.ok.inj h with rfl
    intro c hc
    rcases List.mem_append.mp hc with hc | hc
    · exact Or.inl hc
    · rcases List.mem_singleton.mp hc with rfl
      exact Or.inr (find_page_number_span _ _ _ _ _ _ (by assumption))
  · rcases Except.ok.inj h with rfl
    exact fun c hc => Or.inl hc

lemma repairNumbers_mem (pageLength : ℚ) (lines : List String)
    (prev curr : Candidate) :
    ∀ (missing : List ℕ) (acc out : List Candidate),
      repairNumbers pageLength lines prev curr acc missing = .ok out →
      ∀ c ∈ out, c ∈ acc ∨ ∃ sp, c.span = some sp := by
  intro missing
  induction missing with
  | nil =>
    intro acc out h c hc
    unfold repairNumbers at h
    rcases Except.ok.inj h with rfl
    exact Or.inl hc
  | cons n rest ih =>
    intro acc out h c hc
    unfold repairNumbers at h
    split at h
    · exact absurd h (by simp)
    · rcases ih _ _ h c hc with hmem | hsp
      · rcases repairGapStep_mem pageLength lines prev curr acc n _ (by assumption) c hmem
          with hmem2 | hsp
        · exact Or.inl hmem2
        · exact Or.inr hsp
      · exact Or.inr hsp

lemma repairGap_mem (maxGap : ℕ) (pageLength : ℚ) (lines : List String)
    (prev curr : Candidate) (out : List Candidate)
    (h : repairGap maxGap pageLength lines prev curr = .ok out) :
    ∀ c ∈ out, ∃ sp, c.span = some sp := by
  unfold repairGap at h
  dsimp only at h
  split at h
  · rcases Except.ok.inj h with rfl
    intro c hc
    simp at hc
  · intro c hc
    rcases repairNumbers_mem pageLength lines prev curr _ [] out h c hc with hmem | hsp
    · simp at hmem
    · exact hsp

lemma repairFrom_mem (maxGap : ℕ) (pageLength : ℚ) (lines : List String) :
    ∀ (rest : List Candidate) (prev : Candidate) (out : List Candidate),
      repairFrom maxGap pageLength lines prev rest = .ok out →
      ∀ c ∈ out, c = prev ∨ c ∈ rest ∨ ∃ sp, c.span = some sp := by
  intro rest
  induction rest with
  | nil =>
    intro prev out h c hc
    unfold repairFrom at h
    rcases Except.ok.inj h with rfl
    exact Or.inl (List.mem_singleton.mp hc)
  | cons curr rest2 ih =>
    intro prev out h c hc
    unfold repairFrom at h
    split at h
    · exact absurd h (by simp)
    · split at h
      · exact absurd h (by simp)
      · rcases Except.ok.inj h with rfl
        rcases List.mem_cons.mp hc with rfl | hc
        · exact Or.inl rfl
        · rcases List.mem_append.mp hc with hc | hc
          · exact Or.inr (Or.inr (repairGap_mem _ _ _ _ _ _ (by assumption) c hc))
          · rcases ih curr _ (by assumption) c hc with rfl | hc | hsp
            · exact Or.inr (Or.inl (List.mem_cons_self _ _))
            · exact Or.inr (Or.inl (List.mem_cons_of_mem _ hc))
            · exact Or.inr (Or.inr hsp)

/-- C9: every Candidate produced by the initial extractor
`page_number_candidates` has `span = None` (for both the bare-integer
and the dash-bracketed pattern, since both construction sites use the
`Candidate` default); consequently the default-mode renderer drops
such a line entirely; candidates carrying a span are exactly those
created by `find_page_number` during gap repair, so a repaired
sequence consists of the original candidates plus span-carrying
ones. -/
theorem initial_candidates_span_none :
    (∀ (lines : List String), ∀ c ∈ page_number_candidates lines, c.span = none)
    ∧ (∀ (c : Candidate) (line : String), c.span = none →
        renderLine false (some c) line = [])
    ∧ (∀ (number : ℕ) (startL minL maxL : ℤ) (lines : List String) (c : Candidate),
        find_page_number number startL minL maxL lines = .ok (some c) →
        ∃ sp, c.span = some sp)
    ∧ (∀ (maxGap : ℕ) (pageLength : ℚ) (lines : List String)
        (sequence out : List Candidate),
        repair_sequence maxGap pageLength lines sequence = .ok out →
        ∀ c ∈ out, c ∈ sequence ∨ ∃ sp, c.span = some sp) := by
  refine ⟨?_, ?_, ?_, ?_⟩
  · exact fun lines => pageNumberCandidatesFrom_span lines 0
  · intro c line h
    simp [renderLine, line_without_page_number, h]
  · exact fun number startL minL maxL lines c h =>
      find_page_number_span number startL minL maxL lines c h
  · intro maxGap pageLength lines sequence out h c hc
    match sequence, h with
    | [], h =>
      rcases Except.ok.inj h with rfl
      exact Or.inl hc
    | [a], h =>
      rcases Except.ok.inj h with rfl
      exact Or.inl hc
    | a :: b :: rest, h =>
      rcases repairFrom_mem maxGap pageLength lines (b :: rest) a out h c hc with
        rfl | hm | hsp
      · exact Or.inl (List.mem_cons_self _ _)
      · exact Or.inl (List.mem_cons_of_mem _ hm)
      · exact Or.inr hsp

/-- Concrete instance of `initial_candidates_span_none`: the candidate
extracted from the line "7" has no span and is dropped by the
default-mode renderer; a candidate found by `find_page_number` on the
line "- 3" carries span `(0, 3)`; repairing a one-element sequence
returns it unchanged. -/
theorem initial_candidates_span_none_witness :
    (Candidate.mk 7 "7" 0 none).span = none
    ∧ renderLine false (some (Candidate.mk 7 "7" 0 none)) "7" = []
    ∧ (∃ sp, (Candidate.mk 3 "- 3" 0 (some (0, 3))).span = some sp)
    ∧ ((Candidate.mk 7 "7" 0 none) ∈ [Candidate.mk 7 "7" 0 none]
        ∨ ∃ sp, (Candidate.mk 7 "7" 0 none).span = some sp) := by
  refine ⟨?_, ?_, ?_, ?_⟩
  · exact initial_candidates_span_none.1 ["7"] (Candidate.mk 7 "7" 0 none)
      (by decide)
  · exact initial_candidates_span_none.2.1 (Candidate.mk 7 "7" 0 none) "7" rfl
  · exact initial_candidates_span_none.2.2.1 3 0 0 0 ["- 3"]
      (Candidate.mk 3 "- 3" 0 (some (0, 3))) (by decide)
  · exact initial_candidates_span_none.2.2.2 10 1 ["7"]
      [Candidate.mk 7 "7" 0 none] [Candidate.mk 7 "7" 0 none] rfl
      (Candidate.mk 7 "7" 0 none) (by decide)

/-! ## Enumeration of candidate sequences -/

/-- The ordering constraint `_subsequences` places on the first pick
relative to the `prev` argument. -/
def okAfter : Option Candidate → Candidate → Prop
  | none, _ => True
  | some p, c => p.lineIndex < c.lineIndex

lemma mem_subsequencesFrom (cmap : ℤ → List Candidate) :
    ∀ (seq : List ℤ) (prev : Option Candidate) (s : List Candidate),
      s ∈ subsequencesFrom cmap prev seq ↔
        List.Forall₂ (fun n c => c ∈ cmap n) seq s ∧
        (∀ c ∈ s.head?, okAfter prev c) ∧
        s.Chain' (fun a b => a.lineIndex < b.lineIndex) := by
  intro seq
  induction seq with
  | nil =>
    intro prev s
    constructor
    · intro hs
      rcases List.mem_singleton.mp hs with rfl
      exact ⟨List.Forall₂.nil, by simp, by simp⟩
    · rintro ⟨hf, -, -⟩
      rcases List.forall₂_nil_left_iff.mp hf with rfl
      exact List.mem_singleton.mpr rfl
  | cons first rest ih =>
    intro prev s
    have hcond : ∀ c : Candidate,
        (match prev with
          | none => true
          | some p => decide (p.lineIndex < c.lineIndex)) = true ↔
          okAfter prev c := by
      intro c
      rcases prev with _ | p
      · simp [okAfter]
      · simp [okAfter]
    simp only [subsequencesFrom, List.mem_flatMap]
    constructor
    · rintro ⟨c, hc, hs⟩
      by_cases hok : okAfter prev c
      · rw [if_pos ((hcond c).mpr hok)] at hs
        rcases List.mem_map.mp hs with ⟨s', hs', rfl⟩
        rcases (ih (some c) s').mp hs' with ⟨hf, hhead, hchain⟩
        refine ⟨List.forall₂_cons.mpr ⟨hc, hf⟩, ?_, ?_⟩
        · intro c' hc'
          rcases Option.mem_some_iff.mp hc' with rfl
          exact hok
        · exact List.chain'_cons'.mpr ⟨fun y hy => hhead y hy, hchain⟩
      · rw [if_neg (fun hb => hok ((hcond c).mp hb))] at hs
        simp at hs
    · rintro ⟨hf, hhead, hchain⟩
      rcases List.forall₂_cons_left_iff.mp hf with ⟨c, s', hc, hf', rfl⟩
      refine ⟨c, hc, ?_⟩
      rw [if_pos ((hcond c).mpr (hhead c rfl))]
      refine List.mem_map.mpr ⟨s', ?_, rfl⟩
      rcases List.chain'_cons'.mp hchain with ⟨hhd, hchain'⟩
      exact (ih (some c) s').mpr ⟨hf', fun c' hc' => hhd c' hc', hchain'⟩

lemma mem_candidateMapOf (candidates : List Candidate) (n : ℤ) (c : Candidate) :
    c ∈ candidateMapOf candidates n ↔ (c.number : ℤ) = n ∧ c ∈ candidates := by
  simp [candidateMapOf, List.mem_filter, and_comm]

/-- C5: membership in `candidate_sequences(sequence, candidates)` is
exactly: one candidate per entry of the LIS number list, in order,
each with the matching number and drawn from `candidates`, with
strictly increasing line indices.  No valid assignment is omitted and
nothing else is produced. -/
theorem candidate_sequences_spec (sequence : List ℤ)
    (candidates : List Candidate) (s : List Candidate) :
    s ∈ candidate_sequences sequence candidates ↔
      List.Forall₂ (fun n c => (c.number : ℤ) = n ∧ c ∈ candidates) sequence s ∧
      s.Chain' (fun a b => a.lineIndex < b.lineIndex) := by
  rw [candidate_sequences,
    mem_subsequencesFrom (candidateMapOf candidates) sequence none s]
  constructor
  · rintro ⟨hf, -, hchain⟩
    exact ⟨hf.imp (fun a b hab => (mem_candidateMapOf candidates a b).mp hab),
      hchain⟩
  · rintro ⟨hf, hchain⟩
    exact ⟨hf.imp (fun a b hab => (mem_candidateMapOf candidates a b).mpr hab),
      fun c hc => trivial, hchain⟩

/-- Concrete instance of `candidate_sequences_spec` at the LIS numbers
`[1, 2]` and two candidates. -/
theorem candidate_sequences_spec_witness :
    [Candidate.mk 1 "1" 0 none, Candidate.mk 2 "2" 3 none] ∈
      candidate_sequences [1, 2]
        [Candidate.mk 1 "1" 0 none, Candidate.mk 2 "2" 3 none] :=
  (candidate_sequences_spec [1, 2]
      [Candidate.mk 1 "1" 0 none, Candidate.mk 2 "2" 3 none]
      [Candidate.mk 1 "1" 0 none, Candidate.mk 2 "2" 3 none]).mpr
    ⟨List.Forall₂.cons (by simp) (List.Forall₂.cons (by simp) List.Forall₂.nil),
      List.chain'_cons.mpr ⟨by decide, List.chain'_singleton _⟩⟩

/-! ## Degenerate inputs and the enumeration warning -/

/-- C1 (failing inputs): a document with no page-number candidates
(`["hello", "world"]`) and one with a single candidate
(`["intro", "7", "end"]`) both make `estimate_page_length` call
`median` on an empty list, so `process_page_numbers` raises
`statistics.StatisticsError` instead of passing the text through
unchanged. -/
theorem degenerate_documents_raise :
    process_page_numbers 10 false ["hello", "world"] = .error .statisticsError
    ∧ process_page_numbers 10 false ["intro", "7", "end"] =
        .error .statisticsError := by
  constructor
  · decide
  · decide

set_option maxRecDepth 8000 in
/-- C2 (failing input): a document of eleven bare `1` lines followed
by eleven bare `2` lines yields 121 enumerated candidate sequences;
the warning branch of `make_page_number_sequence` then evaluates an
f-string interpolating `fn`, a name not bound in that scope, so the
run raises `NameError` and aborts instead of warning and
continuing. -/
theorem sequence_explosion_raises :
    process_page_numbers 10 false
      (List.replicate 11 "1" ++ List.replicate 11 "2") =
      .error .nameError := by
  decide

/-! ## Rendering in default (strip) mode -/

/-- C8 (counterexample): a candidate of the final sequence whose span
covers the whole line - as produced by gap repair on the line
`"- 3"` - has span-removal remainder `""`; the renderer drops the
line instead of emitting the empty remainder, because Python's
`elif c.line_without_page_number():` is false for the empty string. -/
theorem strip_empty_remainder_dropped :
    candidateAtLine [Candidate.mk 3 "- 3" 0 (some (0, 3))] 0 =
      some (Candidate.mk 3 "- 3" 0 (some (0, 3)))
    ∧ line_without_page_number (Candidate.mk 3 "- 3" 0 (some (0, 3))) = some ""
    ∧ render false ["- 3"] [Candidate.mk 3 "- 3" 0 (some (0, 3))] = []
    ∧ "" ∉ render false ["- 3"] [Candidate.mk 3 "- 3" 0 (some (0, 3))] := by
  refine ⟨by decide, by decide, by decide, by decide⟩

lemma renderFrom_mem (mark : Bool) (sequence : List Candidate) :
    ∀ (lines : List String) (start : ℤ) (j : ℕ), j < lines.length →
      ∀ x ∈ renderLine mark (candidateAtLine sequence (start + (j : ℤ)))
          (lines.getD j ""),
        x ∈ renderFrom mark sequence start lines := by
  intro lines
  induction lines with
  | nil => intro start j hj; exact absurd hj (by simp)
  | cons line rest ih =>
    intro start j hj x hx
    match j with
    | 0 =>
      simp only [Nat.cast_zero, add_zero, List.getD_cons_zero] at hx
      exact List.mem_append.mpr (Or.inl hx)
    | j + 1 =>
      refine List.mem_append.mpr (Or.inr ?_)
      have hrw : start + ((j : ℤ) + 1) = (start + 1) + (j : ℤ) := by ring
      refine ih (start + 1) j (by simpa using hj) x ?_
      simpa [hrw] using hx

/-- C8 (amended): in default (strip) mode, a line of the final
sequence whose candidate has a span is rendered as that line with
exactly the span's characters removed and the surrounding text
preserved, provided the remainder is non-empty; a candidate whose
span removal leaves the empty string, like one with no span at all,
has its line dropped entirely. -/
theorem render_strip_spec :
    (∀ (c : Candidate) (s e : ℕ), c.span = some (s, e) →
        line_without_page_number c = some (c.line.take s ++ c.line.drop e))
    ∧ (∀ (c : Candidate) (line : String) (s e : ℕ), c.span = some (s, e) →
        c.line.take s ++ c.line.drop e ≠ "" →
        renderLine false (some c) line = [c.line.take s ++ c.line.drop e])
    ∧ (∀ (c : Candidate) (line : String) (s e : ℕ), c.span = some (s, e) →
        c.line.take s ++ c.line.drop e = "" →
        renderLine false (some c) line = [])
    ∧ (∀ (c : Candidate) (line : String), c.span = none →
        renderLine false (some c) line = [])
    ∧ (∀ (lines : List String) (sequence : List Candidate) (i : ℕ)
        (c : Candidate) (r : String), i < lines.length →
        candidateAtLine sequence (i : ℤ) = some c →
        line_without_page_number c = some r → r ≠ "" →
        r ∈ render false lines sequence) := by
  have hline : ∀ (c : Candidate) (s e : ℕ), c.span = some (s, e) →
      line_without_page_number c = some (c.line.take s ++ c.line.drop e) := by
    intro c s e h
    simp [line_without_page_number, h]
  have hrl : ∀ (c : Candidate) (line r : String),
      line_without_page_number c = some r → r ≠ "" →
      renderLine false (some c) line = [r] := by
    intro c line r h hr
    simp [renderLine, h, hr]
  refine ⟨hline, ?_, ?_, ?_, ?_⟩
  · intro c line s e h hne
    exact hrl c line _ (hline c s e h) hne
  · intro c line s e h he
    simp [renderLine, hline c s e h, he]
  · intro c line h
    simp [renderLine, line_without_page_number, h]
  · intro lines sequence i c r hi hc hr hne
    have := renderFrom_mem false sequence lines 0 i hi r
      (by rw [zero_add, hc, hrl c _ r hr hne]; exact List.mem_singleton.mpr rfl)
    simpa [render] using this

/-- Concrete instance of `render_strip_spec`: the candidate on line
`"x 5"` with span `(2, 3)` renders as `"x "`. -/
theorem render_strip_spec_witness :
    "x " ∈ render false ["x 5"] [Candidate.mk 5 "x 5" 0 (some (2, 3))] :=
  render_strip_spec.2.2.2.2 ["x 5"] [Candidate.mk 5 "x 5" 0 (some (2, 3))]
    0 (Candidate.mk 5 "x 5" 0 (some (2, 3))) "x "
    (by decide) (by decide) (by decide) (by decide)

/-! ## The local search of gap repair -/

/-- The sequence of line indices examined by `find_page_number`,
distance by distance: at each distance the lower index first (when
`>= min_line`), then the upper (when `<= max_line`). -/
def searchOrderGo (startL minL maxL : ℤ) : ℕ → ℕ → List ℤ
  | 0, _ => []
  | fuel + 1, d =>
    if minL ≤ startL - (d : ℤ) ∨ startL + (d : ℤ) ≤ maxL then
      ((if minL ≤ startL - (d : ℤ) then [startL - (d : ℤ)] else []) ++
        (if startL + (d : ℤ) ≤ maxL then [startL + (d : ℤ)] else [])) ++
      searchOrderGo startL minL maxL fuel (d + 1)
    else []

/-- All line indices examined by `find_page_number`, in examination
order. -/
def searchOrder (startL minL maxL : ℤ) : List ℤ :=
  searchOrderGo startL minL maxL ((max (startL - minL) (maxL - startL)).toNat + 1) 0

lemma pyGetLine_ok (lines : List String) (i : ℤ) (h0 : 0 ≤ i)
    (h1 : i < (lines.length : ℤ)) :
    pyGetLine lines i = .ok (lines.getD i.toNat "") := by
  unfold pyGetLine
  dsimp only
  rw [if_neg (not_lt.mpr h0), if_pos ⟨h0, h1⟩]

lemma checkLine_ok (lines : List String) (idx : ℤ) (number : ℕ)
    (h0 : 0 ≤ idx) (h1 : idx < (lines.length : ℤ)) :
    checkLine lines idx number =
      .ok ((line_has_page_number (lines.getD idx.toNat "") number).map
        (fun sp => (sp, lines.getD idx.toNat ""))) := by
  unfold checkLine
  rw [pyGetLine_ok lines idx h0 h1]

lemma findPageNumberGo_searchOrder (number : ℕ) (startL minL maxL : ℤ)
    (lines : List String) (h0 : 0 ≤ minL) (h1 : maxL < (lines.length : ℤ))
    (h2 : minL ≤ startL) (h3 : startL ≤ maxL) :
    ∀ (fuel d : ℕ),
      findPageNumberGo number startL minL maxL lines fuel d =
        .ok (((searchOrderGo startL minL maxL fuel d).find?
            (fun i =>
              (line_has_page_number (lines.getD i.toNat "") number).isSome)).map
          (fun i => ⟨number, lines.getD i.toNat "", i,
            line_has_page_number (lines.getD i.toNat "") number⟩)) := by
  intro fuel
  induction fuel with
  | zero => intro d; simp [findPageNumberGo, searchOrderGo]
  | succ n ih =>
    intro d
    rw [findPageNumberGo, searchOrderGo]
    by_cases hg : minL ≤ startL - (d : ℤ) ∨ startL + (d : ℤ) ≤ maxL
    · rw [if_pos hg, if_pos hg]
      by_cases hlow : minL ≤ startL - (d : ℤ)
      · rw [if_pos hlow, if_pos hlow,
          checkLine_ok lines _ number (by omega) (by omega)]
        cases hm : line_has_page_number (lines.getD (startL - (d : ℤ)).toNat "")
            number with
        | some sp =>
          simp only [List.append_assoc, List.cons_append, List.nil_append]
          rw [List.find?_cons_of_pos _ (by simp only [hm]; simp)]
          simp only [Option.map_some']
          rw [hm]
        | none =>
          simp only [List.append_assoc, List.cons_append, List.nil_append]
          rw [List.find?_cons_of_neg _ (by simp only [hm]; simp)]
          by_cases hup : startL + (d : ℤ) ≤ maxL
          · rw [if_pos hup, if_pos hup,
              checkLine_ok lines _ number (by omega) (by omega)]
            cases hm2 : line_has_page_number
                (lines.getD (startL + (d : ℤ)).toNat "") number with
            | some sp =>
              simp only [List.cons_append, List.nil_append]
              rw [List.find?_cons_of_pos _ (by simp only [hm2]; simp)]
              simp only [Option.map_some']
              rw [hm2]
              rfl
            | none =>
              simp only [List.cons_append, List.nil_append]
              rw [List.find?_cons_of_neg _ (by simp only [hm2]; simp)]
              exact ih (d + 1)
          · rw [if_neg hup, if_neg hup]
            simp only [List.nil_append]
            exact ih (d + 1)
      · rw [if_neg hlow, if_neg hlow]
        have hup : startL + (d : ℤ) ≤ maxL := hg.resolve_left hlow
        rw [if_pos hup, if_pos hup,
          checkLine_ok lines _ number (by omega) (by omega)]
        cases hm2 : line_has_page_number
            (lines.getD (startL + (d : ℤ)).toNat "") number with
        | some sp =>
          simp only [List.append_assoc, List.cons_append, List.nil_append]
          rw [List.find?_cons_of_pos _ (by simp only [hm2]; simp)]
          simp only [Option.map_some']
          rw [hm2]
        | none =>
          simp only [List.append_assoc, List.cons_append, List.nil_append]
          rw [List.find?_cons_of_neg _ (by simp only [hm2]; simp)]
          exact ih (d + 1)
    · rw [if_neg hg, if_neg hg]
      simp

/-- C7: under valid window bounds, `find_page_number` examines line
indices in order of increasing distance from `start_line`, at each
distance the lower index (when `>= min_line`) before the upper one
(when `<= max_line`); the first examined line whose prefix matches
the loose pattern produces the returned `Candidate`, whose `span` is
the exact character span of the match (`m.span()`, starting at
offset 0); if no examined line matches, the result is `None`, in
which case the corresponding missing number is skipped by
`repair_sequence` (the accumulator is returned unchanged). -/
theorem find_page_number_search_spec :
    (∀ (number : ℕ) (startL minL maxL : ℤ) (lines : List String),
        0 ≤ minL → maxL < (lines.length : ℤ) → minL ≤ startL → startL ≤ maxL →
        find_page_number number startL minL maxL lines =
          .ok (((searchOrder startL minL maxL).find?
              (fun i =>
                (line_has_page_number (lines.getD i.toNat "") number).isSome)).map
            (fun i => ⟨number, lines.getD i.toNat "", i,
              line_has_page_number (lines.getD i.toNat "") number⟩)))
    ∧ (∀ (pageLength : ℚ) (lines : List String) (prev curr : Candidate)
        (acc : List Candidate) (n : ℕ),
        find_page_number n (pyInt (repairStartLine prev n pageLength))
          (pyInt (repairMinLine prev (repairStartLine prev n pageLength)
            pageLength))
          (pyInt (repairMaxLine curr (repairStartLine prev n pageLength)
            pageLength))
          lines = .ok none →
        repairGapStep pageLength lines prev curr acc n = .ok acc) := by
  constructor
  · intro number startL minL maxL lines h0 h1 h2 h3
    exact findPageNumberGo_searchOrder number startL minL maxL lines h0 h1 h2 h3
      ((max (startL - minL) (maxL - startL)).toNat + 1) 0
  · intro pageLength lines prev curr acc n h
    unfold repairGapStep
    dsimp only
    rw [h]

/-- Concrete instance of `find_page_number_search_spec`: searching for
`3` around line 1 of `["a", "- 3", "b"]`. -/
theorem find_page_number_search_spec_witness :
    find_page_number 3 1 0 2 ["a", "- 3", "b"] =
      .ok (((searchOrder 1 0 2).find?
          (fun i =>
            (line_has_page_number ((["a", "- 3", "b"] : List String).getD
              i.toNat "") 3).isSome)).map
        (fun i => ⟨3, (["a", "- 3", "b"] : List String).getD i.toNat "", i,
          line_has_page_number ((["a", "- 3", "b"] : List String).getD
            i.toNat "") 3⟩)) :=
  find_page_number_search_spec.1 3 1 0 2 ["a", "- 3", "b"]
    (by decide) (by decide) (by decide) (by decide)

/-- C10 (counterexample): with `min_line = 15 ≥ 0` and
`max_line = 0 < len(lines) = 10` but `start_line = 17` above the
window, the very first iteration of `find_page_number` subscripts
`lines[17]`, outside `[min_line, max_line]` and out of bounds, raising
`IndexError`. -/
theorem find_page_number_window_overrun :
    (0 : ℤ) ≤ 15 ∧ (0 : ℤ) < ((List.replicate 10 "x" : List String).length : ℤ)
    ∧ find_page_number 3 17 15 0 (List.replicate 10 "x") =
        .error .indexError := by
  refine ⟨by decide, by decide, by decide⟩

lemma one_le_pyInt {q : ℚ} (h : 1 ≤ q) : 1 ≤ pyInt q := by
  unfold pyInt
  rw [if_pos (le_trans zero_le_one h)]
  exact Int.le_floor.mpr (by exact_mod_cast h)

lemma pyInt_le {q : ℚ} {z : ℤ} (hz : q ≤ (z : ℚ)) (hz0 : 0 ≤ z) : pyInt q ≤ z := by
  unfold pyInt
  split
  · calc ⌊q⌋ ≤ ⌊(z : ℚ)⌋ := Int.floor_le_floor hz
      _ = z := Int.floor_intCast z
  · rename_i hq
    have : ⌈q⌉ ≤ 0 := Int.ceil_le.mpr (by exact_mod_cast le_of_lt (not_le.mp hq))
    omega

/-- C10 (amended): the search loop of `find_page_number` always
terminates; when additionally `min_line ≤ start_line ≤ max_line`
(which `repair_sequence` does not guarantee), every examined index
lies in `[min_line, max_line]`, every subscript is in bounds, and the
call returns without `IndexError`; and the preconditions
`0 ≤ min_line` and `max_line < len(lines)` do hold for every call
`repair_sequence` makes, whenever the pair brackets the document
(`0 ≤ prev.line_index < curr.line_index < len(lines)`). -/
theorem find_page_number_window_safety :
    (∀ (number : ℕ) (startL minL maxL : ℤ) (lines : List String),
        0 ≤ minL → maxL < (lines.length : ℤ) → minL ≤ startL → startL ≤ maxL →
        ∃ r, find_page_number number startL minL maxL lines = .ok r)
    ∧ (∀ (prev curr : Candidate) (pageLength : ℚ) (number : ℕ) (docLen : ℤ),
        0 ≤ prev.lineIndex → prev.lineIndex < curr.lineIndex →
        curr.lineIndex < docLen →
        0 ≤ pyInt (repairMinLine prev (repairStartLine prev number pageLength)
            pageLength)
        ∧ pyInt (repairMaxLine curr (repairStartLine prev number pageLength)
            pageLength) < docLen) := by
  constructor
  · intro number startL minL maxL lines h0 h1 h2 h3
    exact ⟨_, findPageNumberGo_searchOrder number startL minL maxL lines
      h0 h1 h2 h3 ((max (startL - minL) (maxL - startL)).toNat + 1) 0⟩
  · intro prev curr pageLength number docLen hp hpc hcd
    constructor
    · have h1 : (1 : ℚ) ≤ repairMinLine prev
          (repairStartLine prev number pageLength) pageLength := by
        refine le_trans ?_ (le_max_left _ _)
        have : (0 : ℚ) ≤ (prev.lineIndex : ℚ) := by exact_mod_cast hp
        linarith
      have := one_le_pyInt h1
      omega
    · have h2 : repairMaxLine curr (repairStartLine prev number pageLength)
          pageLength ≤ ((curr.lineIndex - 1 : ℤ) : ℚ) := by
        refine le_trans (min_le_left _ _) ?_
        push_cast
        exact le_refl _
      have h3 : (0 : ℤ) ≤ curr.lineIndex - 1 := by omega
      have := pyInt_le h2 h3
      omega

/-- Concrete instance of `find_page_number_window_safety`: a search
within the window `[0, 2]` of a three-line document succeeds, and the
window computed by `repair_sequence` for the pair of candidates at
lines 0 and 5 of a ten-line document is within bounds. -/
theorem find_page_number_window_safety_witness :
    (∃ r, find_page_number 3 1 0 2 ["a", "- 3", "b"] = .ok r)
    ∧ (0 ≤ pyInt (repairMinLine (Candidate.mk 1 "1" 0 none)
          (repairStartLine (Candidate.mk 1 "1" 0 none) 2 2) 2)
      ∧ pyInt (repairMaxLine (Candidate.mk 3 "3" 5 none)
          (repairStartLine (Candidate.mk 1 "1" 0 none) 2 2) 2) < 10) :=
  ⟨find_page_number_window_safety.1 3 1 0 2 ["a", "- 3", "b"]
      (by decide) (by decide) (by decide) (by decide),
    find_page_number_window_safety.2 (Candidate.mk 1 "1" 0 none)
      (Candidate.mk 3 "3" 5 none) 2 2 10 (by decide) (by decide) (by decide)⟩

/-! ## Plausibility trimming -/

/-- The implausibility condition as the specification words it: the
numeric gap exceeds `max_gap`, or the pair's local lines-per-page
ratio is less than one twentieth of the page-length estimate. -/
def ImplausiblePair (maxGap : ℕ) (pageLength : ℚ) (prev curr : Candidate) : Prop :=
  (curr.number : ℚ) - (prev.number : ℚ) > (maxGap : ℚ) ∨
  20 * (((curr.lineIndex : ℚ) - (prev.lineIndex : ℚ)) /
    ((curr.number : ℚ) - (prev.number : ℚ))) < pageLength

lemma pair_rejection_iff (maxGap : ℕ) (pageLength : ℚ)
    (p c : Candidate) :
    plausible_page_number_pair maxGap pageLength p c = false ↔
      ImplausiblePair maxGap pageLength p c := by
  have hgap : c.number > p.number + maxGap ↔
      (c.number : ℚ) - (p.number : ℚ) > (maxGap : ℚ) := by
    constructor
    · intro h
      have : ((p.number + maxGap : ℕ) : ℚ) < (c.number : ℚ) := by exact_mod_cast h
      push_cast at this
      linarith
    · intro h
      have : ((p.number + maxGap : ℕ) : ℚ) < (c.number : ℚ) := by
        push_cast
        linarith
      exact_mod_cast this
  unfold plausible_page_number_pair ImplausiblePair avg_page_len
  split
  · rename_i h
    simp only [false_iff, iff_true]
    constructor
    · intro _
      exact Or.inl (hgap.mp h)
    · intro _
      trivial
  · rename_i h
    split
    · rename_i h2
      simp only [iff_true]
      constructor
      · intro _
        exact Or.inr h2
      · intro _
        trivial
    · rename_i h2
      constructor
      · intro hfalse
        exact absurd hfalse (by simp)
      · intro himp
        rcases himp with himp | himp
        · exact absurd (hgap.mpr himp) h
        · exact absurd himp h2

lemma firstBad_eq_none_iff (maxGap : ℕ) (pageLength : ℚ) :
    ∀ (s : List Candidate),
      firstBad maxGap pageLength s = none ↔
      ∀ j, j + 1 < s.length →
        plausible_page_number_pair maxGap pageLength (s.getD j noCandidate)
          (s.getD (j + 1) noCandidate) = true := by
  intro s
  induction s with
  | nil =>
    constructor
    · intro _ j hj
      exact absurd hj (by simp)
    · intro _
      rfl
  | cons a rest ih =>
    cases rest with
    | nil =>
      constructor
      · intro _ j hj
        exact absurd hj (by simp)
      · intro _
        rfl
    | cons b rest2 =>
      rw [firstBad]
      by_cases hab :
          plausible_page_number_pair maxGap pageLength a b = true
      · rw [if_pos hab]
        rw [Option.map_eq_none']
        rw [ih]
        constructor
        · intro hall j hj
          match j with
          | 0 => simpa using hab
          | j + 1 =>
            have := hall j (by simpa using hj)
            simpa using this
        · intro hall j hj
          have := hall (j + 1) (by simpa using hj)
          simpa using this
      · rw [if_neg hab]
        constructor
        · intro hcontra
          exact absurd hcontra (by simp)
        · intro hall
          exact absurd (by simpa using hall 0 (by simp)) hab

lemma firstBad_eq_some_iff (maxGap : ℕ) (pageLength : ℚ) :
    ∀ (s : List Candidate) (m : ℕ),
      firstBad maxGap pageLength s = some m ↔
      m + 1 < s.length ∧
      (∀ j, j < m →
        plausible_page_number_pair maxGap pageLength (s.getD j noCandidate)
          (s.getD (j + 1) noCandidate) = true) ∧
      plausible_page_number_pair maxGap pageLength (s.getD m noCandidate)
        (s.getD (m + 1) noCandidate) = false := by
  intro s
  induction s with
  | nil =>
    intro m
    constructor
    · intro h
      exact absurd h (by simp [firstBad])
    · rintro ⟨hm, -, -⟩
      exact absurd hm (by simp)
  | cons a rest ih =>
    cases rest with
    | nil =>
      intro m
      constructor
      · intro h
        exact absurd h (by simp [firstBad])
      · rintro ⟨hm, -, -⟩
        exact absurd hm (by simp)
    | cons b rest2 =>
      intro m
      rw [firstBad]
      by_cases hab :
          plausible_page_number_pair maxGap pageLength a b = true
      · rw [if_pos hab]
        constructor
        · intro h
          rcases Option.map_eq_some'.mp h with ⟨m', hm', rfl⟩
          rcases (ih m').mp hm' with ⟨hlen, hall, hbad⟩
          refine ⟨by simpa using hlen, ?_, by simpa using hbad⟩
          intro j hj
          match j with
          | 0 => simpa using hab
          | j + 1 =>
            have := hall j (by omega)
            simpa using this
        · rintro ⟨hlen, hall, hbad⟩
          match m with
          | 0 =>
            exact absurd hab (by simpa using hbad)
          | m + 1 =>
            refine Option.map_eq_some'.mpr ⟨m, (ih m).mpr ⟨?_, ?_, ?_⟩, rfl⟩
            · simpa using hlen
            · intro j hj
              have := hall (j + 1) (by omega)
              simpa using this
            · simpa using hbad
      · rw [if_neg hab]
        constructor
        · intro h
          rcases Option.some.inj h with rfl
          refine ⟨by simp, ?_, by simpa using (Bool.not_eq_true _).mp hab⟩
          intro j hj
          exact absurd hj (by omega)
        · rintro ⟨hlen, hall, hbad⟩
          match m with
          | 0 => rfl
          | m + 1 =>
            exact absurd (by simpa using hall 0 (by omega)) hab

lemma trimGo_eq_of_le (maxGap : ℕ) (pageLength : ℚ) :
    ∀ (fuel : ℕ) (s : List Candidate), s.length ≤ fuel →
      trimGo maxGap pageLength fuel s =
        trimGo maxGap pageLength s.length s := by
  intro fuel
  induction fuel using Nat.strong_induction_on with
  | _ fuel ih =>
    match fuel with
    | 0 =>
      intro s hs
      have : s.length = 0 := by omega
      rw [this]
    | n + 1 =>
      intro s hs
      match hlen : s.length, hs with
      | 0, _ =>
        have hnil : s = [] := List.length_eq_zero.mp hlen
        subst hnil
        rfl
      | k + 1, hs =>
        rw [trimGo]
        conv_rhs => rw [trimGo]
        rw [hlen]
        by_cases hsmall : k + 1 < 2
        · rw [if_pos (by omega), if_pos (by omega)]
        · rw [if_neg (by omega), if_neg (by omega)]
          cases hfb : firstBad maxGap pageLength s with
          | none => rfl
          | some m =>
            have hdrop : (s.drop (m + 1)).length ≤ n := by
              have := List.length_drop (m + 1) s
              omega
            have hdropk : (s.drop (m + 1)).length ≤ k := by
              have := List.length_drop (m + 1) s
              omega
            dsimp only
            rw [ih n (by omega) (s.drop (m + 1)) hdrop,
              ih k (by omega) (s.drop (m + 1)) hdropk]

/-- The one-step unfolding of `trim_sequence`. -/
lemma trim_sequence_eq (maxGap : ℕ) (pageLength : ℚ) (s : List Candidate) :
    trim_sequence maxGap pageLength s =
      if s.length < 2 then s
      else
        match firstBad maxGap pageLength s with
        | none => s
        | some m =>
          if (s.take (m + 1)).length >
              (trim_sequence maxGap pageLength (s.drop (m + 1))).length
          then s.take (m + 1)
          else trim_sequence maxGap pageLength (s.drop (m + 1)) := by
  unfold trim_sequence
  match hlen : s.length with
  | 0 =>
    have hnil : s = [] := List.length_eq_zero.mp hlen
    subst hnil
    rfl
  | k + 1 =>
    rw [trimGo]
    by_cases hsmall : k + 1 < 2
    · rw [if_pos (by omega), if_pos (by omega)]
    · rw [if_neg (by omega), if_neg (by omega)]
      cases hfb : firstBad maxGap pageLength s with
      | none => rfl
      | some m =>
        have hdropk : (s.drop (m + 1)).length ≤ k := by
          have := List.length_drop (m + 1) s
          omega
        dsimp only
        rw [trimGo_eq_of_le maxGap pageLength k (s.drop (m + 1)) hdropk]

/-- C6: a pair `(prev, curr)` is implausible exactly when
`curr.number - prev.number > max_gap` or
`20 * ((curr.line_index - prev.line_index) / (curr.number -
prev.number)) < page_length`; a sequence with no implausible pair is
returned unchanged (as is any sequence of fewer than two elements);
and at the first implausible pair, at 1-based position `i`,
`trim_sequence` returns the longer of `sequence[:i]` and the
recursively trimmed `sequence[i:]` (ties going to the trimmed tail).
The hypotheses mirror the claim ("length at least 2" is not needed
for the conjuncts that quantify it away, positivity of the estimate
and strictly increasing numbers reflect the claim's setting and the
assertion in `avg_page_len`). -/
theorem trim_sequence_spec (maxGap : ℕ) (pageLength : ℚ) (s : List Candidate)
    (hpl : 0 < pageLength)
    (hinc : s.Chain' (fun a b => a.number < b.number)) :
    (∀ (p c : Candidate),
        plausible_page_number_pair maxGap pageLength p c = false ↔
          ImplausiblePair maxGap pageLength p c)
    ∧ (s.length < 2 → trim_sequence maxGap pageLength s = s)
    ∧ ((∀ j, j + 1 < s.length →
          ¬ ImplausiblePair maxGap pageLength (s.getD j noCandidate)
            (s.getD (j + 1) noCandidate)) →
        trim_sequence maxGap pageLength s = s)
    ∧ (∀ i, 1 ≤ i → i < s.length →
        (∀ j, j + 1 < i →
          ¬ ImplausiblePair maxGap pageLength (s.getD j noCandidate)
            (s.getD (j + 1) noCandidate)) →
        ImplausiblePair maxGap pageLength (s.getD (i - 1) noCandidate)
          (s.getD i noCandidate) →
        trim_sequence maxGap pageLength s =
          if (s.take i).length >
              (trim_sequence maxGap pageLength (s.drop i)).length
          then s.take i
          else trim_sequence maxGap pageLength (s.drop i)) := by
  refine ⟨pair_rejection_iff maxGap pageLength, ?_, ?_, ?_⟩
  · intro hlen
    rw [trim_sequence_eq, if_pos hlen]
  · intro hall
    rw [trim_sequence_eq]
    by_cases hlen : s.length < 2
    · rw [if_pos hlen]
    · rw [if_neg hlen]
      have hnone : firstBad maxGap pageLength s = none := by
        rw [firstBad_eq_none_iff]
        intro j hj
        have := hall j hj
        rcases hb : plausible_page_number_pair maxGap pageLength
            (s.getD j noCandidate) (s.getD (j + 1) noCandidate) with _ | _
        · exact absurd ((pair_rejection_iff _ _ _ _).mp hb) this
        · rfl
      rw [hnone]
  · intro i hi1 hilen hall hbad
    have hsome : firstBad maxGap pageLength s = some (i - 1) := by
      rw [firstBad_eq_some_iff]
      refine ⟨by omega, ?_, ?_⟩
      · intro j hj
        have := hall j (by omega)
        rcases hb : plausible_page_number_pair maxGap pageLength
            (s.getD j noCandidate) (s.getD (j + 1) noCandidate) with _ | _
        · exact absurd ((pair_rejection_iff _ _ _ _).mp hb) this
        · rfl
      · have hrw : i - 1 + 1 = i := by omega
        rw [hrw]
        rcases hb : plausible_page_number_pair maxGap pageLength
            (s.getD (i - 1) noCandidate) (s.getD i noCandidate) with _ | _
        · rfl
        · exact absurd hbad
            (by
              intro h
              have := (pair_rejection_iff maxGap pageLength
                (s.getD (i - 1) noCandidate) (s.getD i noCandidate)).mpr h
              rw [hb] at this
              exact Bool.true_eq_false.mp this)
    rw [trim_sequence_eq, if_neg (by omega), hsome]
    dsimp only
    have hrw : i - 1 + 1 = i := by omega
    rw [hrw]

/-- Concrete instance of `trim_sequence_spec`: with estimate 1 and
`max_gap` 10, the first pair of the sequence with numbers 1, 13, 14
jumps by 12 and is implausible, so the sequence is split after its
first element and the longer (trimmed) tail is kept. -/
theorem trim_sequence_spec_witness :
    trim_sequence 10 1
        [Candidate.mk 1 "1" 0 none, Candidate.mk 13 "13" 1 none,
          Candidate.mk 14 "14" 50 none] =
      if (([Candidate.mk 1 "1" 0 none, Candidate.mk 13 "13" 1 none,
            Candidate.mk 14 "14" 50 none] : List Candidate).take 1).length >
          (trim_sequence 10 1
            (([Candidate.mk 1 "1" 0 none, Candidate.mk 13 "13" 1 none,
              Candidate.mk 14 "14" 50 none] : List Candidate).drop 1)).length
      then ([Candidate.mk 1 "1" 0 none, Candidate.mk 13 "13" 1 none,
            Candidate.mk 14 "14" 50 none] : List Candidate).take 1
      else trim_sequence 10 1
        (([Candidate.mk 1 "1" 0 none, Candidate.mk 13 "13" 1 none,
          Candidate.mk 14 "14" 50 none] : List Candidate).drop 1) :=
  (trim_sequence_spec 10 1
      [Candidate.mk 1 "1" 0 none, Candidate.mk 13 "13" 1 none,
        Candidate.mk 14 "14" 50 none]
      one_pos
      (List.chain'_cons.mpr ⟨by decide,
        List.chain'_cons.mpr ⟨by decide, List.chain'_singleton _⟩⟩)).2.2.2
    1 le_rfl (by decide) (fun j hj => absurd hj (by omega))
    (by
      unfold ImplausiblePair
      left
      norm_num)

/-! ## The worked example of the specification -/

/-- The example input lines of the specification. -/
def exampleLines : List String :=
  ["intro", "1", "body one", "body two", "2", "more text", "3", "end"]

/-- The candidate extracted from line 1 of the example. -/
def exC1 : Candidate := ⟨1, "1", 1, none⟩

/-- The candidate extracted from line 4 of the example. -/
def exC2 : Candidate := ⟨2, "2", 4, none⟩

/-- The candidate extracted from line 6 of the example. -/
def exC3 : Candidate := ⟨3, "3", 6, none⟩

lemma example_candidates :
    page_number_candidates exampleLines = [exC1, exC2, exC3] := by decide

lemma example_avg12 : avg_page_len exC1 exC2 = 3 := by
  unfold avg_page_len exC1 exC2
  norm_num

lemma example_avg23 : avg_page_len exC2 exC3 = 2 := by
  unfold avg_page_len exC2 exC3
  norm_num

lemma example_estimate :
    estimate_page_length [[exC1, exC2, exC3]] = .ok (5 / 2) := by
  have hsort : pySorted [3, 2] = [2, 3] := by
    simp only [pySorted, insertOrdered]
    rw [if_neg (by norm_num)]
  have hmed : median
      ((pairsOf [exC1, exC2, exC3]).map (fun pc => avg_page_len pc.1 pc.2)) =
      .ok (5 / 2) := by
    have hpairs : (pairsOf [exC1, exC2, exC3]).map
        (fun pc => avg_page_len pc.1 pc.2) =
        [avg_page_len exC1 exC2, avg_page_len exC2 exC3] := rfl
    rw [hpairs, example_avg12, example_avg23]
    unfold median
    dsimp only
    rw [if_neg (by simp), if_neg (by simp), hsort]
    simp only [List.length_cons, List.length_nil, Except.ok.injEq]
    norm_num
  have hper : perSequenceEstimates [[exC1, exC2, exC3]] = .ok [5 / 2] := by
    unfold perSequenceEstimates
    rw [hmed]
    rfl
  have hmed1 : median [(5 : ℚ) / 2] = .ok (5 / 2) := by
    unfold median
    dsimp only
    rw [if_neg (by simp), if_pos (by simp)]
    rfl
  unfold estimate_page_length
  rw [hper]
  exact hmed1

lemma example_plausible12 :
    plausible_page_number_pair 10 (5 / 2) exC1 exC2 = true := by
  unfold plausible_page_number_pair
  rw [if_neg (by decide), example_avg12, if_neg (by norm_num)]

lemma example_plausible23 :
    plausible_page_number_pair 10 (5 / 2) exC2 exC3 = true := by
  unfold plausible_page_number_pair
  rw [if_neg (by decide), example_avg23, if_neg (by norm_num)]

lemma example_trim :
    trim_sequence 10 (5 / 2) [exC1, exC2, exC3] = [exC1, exC2, exC3] := by
  rw [trim_sequence_eq, if_neg (by simp)]
  have hnone : firstBad 10 (5 / 2) [exC1, exC2, exC3] = none := by
    rw [firstBad, if_pos example_plausible12,
      firstBad, if_pos example_plausible23]
    rfl
  rw [hnone]

lemma example_make :
    make_page_number_sequence 10 [exC1, exC2, exC3] =
      .ok ([exC1, exC2, exC3], 5 / 2) := by
  have hlis : longest_increasing_subsequence
      (List.map (fun c => (c.number : ℤ)) [exC1, exC2, exC3]) = [1, 2, 3] := by
    decide
  have hfilt : List.filter
      (fun c => ([1, 2, 3] : List ℤ).contains (c.number : ℤ))
      [exC1, exC2, exC3] = [exC1, exC2, exC3] := by decide
  have hseqs : candidate_sequences [1, 2, 3] [exC1, exC2, exC3] =
      [[exC1, exC2, exC3]] := by decide
  have hsel : select_best_sequence [[exC1, exC2, exC3]] (5 / 2) =
      .ok [exC1, exC2, exC3] := rfl
  unfold make_page_number_sequence
  dsimp only
  rw [hlis, hfilt, hseqs, if_neg (by decide), example_estimate]
  dsimp only
  rw [List.map_cons, List.map_nil, example_trim, hsel]

lemma example_repair :
    repair_sequence 10 (5 / 2) exampleLines [exC1, exC2, exC3] =
      .ok [exC1, exC2, exC3] := rfl

lemma example_render :
    render false exampleLines [exC1, exC2, exC3] =
      ["intro", "body one", "body two", "more text", "end"] := by decide

/-- C3: on the specification's example input with default options
(`max_gap = 10`, `mark = false`) the pipeline outputs exactly the
lines at indices 0, 2, 3, 5, 7, unchanged and in order, with the
three bare-number lines removed. -/
theorem pipeline_example :
    process_page_numbers 10 false exampleLines =
      .ok ["intro", "body one", "body two", "more text", "end"] := by
  unfold process_page_numbers
  rw [example_candidates, example_make]
  dsimp only
  rw [example_repair]
  dsimp only
  rw [example_make]
  dsimp only
  rw [example_render]

/-! ## Correctness of the longest-increasing-subsequence routine

The proof follows the classical patience-sorting invariant: after the
prefix `seq[0:i]` is processed, `min_idx[j]` (for `1 ≤ j ≤ max_len`)
ends a strictly increasing index chain of length `j` reconstructible
through `pred`, the tail values `seq[min_idx[j]]` are monotone in `j`
and minimal among all chains of length `j`, and `max_len` is the
maximal chain length. -/

/-- The list of indices visited by walking `pred` backwards `m` times
from `k`, in forward order. -/
def predChainIdx (pred : List ℕ) : ℕ → ℕ → List ℕ
  | 0, _ => []
  | m + 1, k => predChainIdx pred m (pred.getD k 0) ++ [k]

lemma predChainIdx_length (pred : List ℕ) :
    ∀ (m k : ℕ), (predChainIdx pred m k).length = m := by
  intro m
  induction m with
  | zero => intro k; rfl
  | succ m ih =>
    intro k
    rw [predChainIdx, List.length_append, ih]
    simp

lemma predChainIdx_getLast (pred : List ℕ) (m k : ℕ) (hm : 0 < m) :
    (predChainIdx pred m k).getLast? = some k := by
  match m, hm with
  | m + 1, _ =>
    rw [predChainIdx, List.getLast?_concat]

lemma lisReconstruct_eq_map (seq : List ℤ) (pred : List ℕ) :
    ∀ (m k : ℕ), lisReconstruct seq pred m k =
      (predChainIdx pred m k).map (fun j => seq.getD j 0) := by
  intro m
  induction m with
  | zero => intro k; rfl
  | succ m ih =>
    intro k
    rw [lisReconstruct, predChainIdx, List.map_append, ih]
    rfl

lemma getD_set_ne (l : List ℕ) (i j v : ℕ) (h : j ≠ i) :
    (l.set i v).getD j 0 = l.getD j 0 := by
  rw [List.getD_eq_getElem?_getD, List.getD_eq_getElem?_getD,
    List.getElem?_set_ne (Ne.symm h)]

lemma getD_set_self (l : List ℕ) (i v : ℕ) (h : i < l.length) :
    (l.set i v).getD i 0 = v := by
  rw [List.getD_eq_getElem?_getD, List.getElem?_set_self h]
  rfl

lemma predChainIdx_set_ne (pred : List ℕ) (i v : ℕ) :
    ∀ (m k : ℕ), (∀ a ∈ predChainIdx pred m k, a ≠ i) →
      predChainIdx (pred.set i v) m k = predChainIdx pred m k := by
  intro m
  induction m with
  | zero => intro k _; rfl
  | succ m ih =>
    intro k h
    have hk : k ≠ i := by
      refine h k ?_
      rw [predChainIdx]
      exact List.mem_append.mpr (Or.inr (by simp))
    rw [predChainIdx, predChainIdx, getD_set_ne pred i k v hk]
    rw [ih (pred.getD k 0) (fun a ha => h a ?_)]
    rw [predChainIdx]
    exact List.mem_append.mpr (Or.inl ha)

/-- A strictly increasing chain of positions below `n` whose values
are strictly increasing: the index-level view of a strictly
increasing subsequence of `seq` confined to the first `n`
positions. -/
def IndexChain (seq : List ℤ) (n : ℕ) (l : List ℕ) : Prop :=
  l.Chain' (· < ·) ∧
  (l.map (fun j => seq.getD j 0)).Chain' (· < ·) ∧
  ∀ j ∈ l, j < n

lemma indexChain_mono (seq : List ℤ) {n n' : ℕ} (h : n ≤ n') {l : List ℕ}
    (hl : IndexChain seq n l) : IndexChain seq n' l :=
  ⟨hl.1, hl.2.1, fun j hj => lt_of_lt_of_le (hl.2.2 j hj) h⟩

lemma chain'_lt_le_getLast :
    ∀ (l : List ℕ), l.Chain' (· < ·) → ∀ a ∈ l, ∀ b, l.getLast? = some b → a ≤ b := by
  intro l
  induction l with
  | nil => intro _ a ha; exact absurd ha (by simp)
  | cons x rest ih =>
    intro hch a ha b hb
    cases rest with
    | nil =>
      rcases List.mem_singleton.mp ha with rfl
      simp at hb
      omega
    | cons y t =>
      rw [List.getLast?_cons_cons] at hb
      have hxy : x < y := (List.chain'_cons.mp hch).1
      have hch' : (y :: t).Chain' (· < ·) := (List.chain'_cons.mp hch).2
      rcases List.mem_cons.mp ha with rfl | ha
      · have := ih hch' y (List.mem_cons_self _ _) b hb
        omega
      · exact ih hch' a ha b hb

lemma indexChain_singleton (seq : List ℤ) (n i : ℕ) (h : i < n) :
    IndexChain seq n [i] :=
  ⟨List.chain'_singleton _, List.chain'_singleton _,
    fun j hj => by rcases List.mem_singleton.mp hj with rfl; exact h⟩

lemma indexChain_snoc (seq : List ℤ) (n : ℕ) (l : List ℕ) (i : ℕ)
    (hl : IndexChain seq n l) (hin : i < n)
    (hlast : ∀ b ∈ l.getLast?, b < i ∧ seq.getD b 0 < seq.getD i 0) :
    IndexChain seq n (l ++ [i]) := by
  obtain ⟨hch, hvch, hbound⟩ := hl
  refine ⟨?_, ?_, ?_⟩
  · rw [List.chain'_append]
    exact ⟨hch, List.chain'_singleton _,
      fun x hx y hy => by
        rcases Option.mem_some_iff.mp hy with rfl
        exact (hlast x hx).1⟩
  · rw [List.map_append, List.chain'_append]
    refine ⟨hvch, List.chain'_singleton _, ?_⟩
    intro x hx y hy
    rcases Option.mem_some_iff.mp hy with rfl
    rw [List.getLast?_map] at hx
    rcases Option.map_eq_some'.mp hx with ⟨b, hb, rfl⟩
    exact (hlast b hb).2
  · intro j hj
    rcases List.mem_append.mp hj with hj | hj
    · exact hbound j hj
    · rcases List.mem_singleton.mp hj with rfl
      exact hin

lemma indexChain_split_top (seq : List ℤ) (i : ℕ) (l : List ℕ)
    (hl : IndexChain seq (i + 1) l) (hmem : i ∈ l) :
    ∃ l₀, l = l₀ ++ [i] ∧ IndexChain seq i l₀ ∧
      ∀ b ∈ l₀.getLast?, seq.getD b 0 < seq.getD i 0 := by
  obtain ⟨hch, hvch, hbound⟩ := hl
  have hne : l ≠ [] := List.ne_nil_of_mem hmem
  have hlastval : l.getLast hne = i := by
    have h1 : i ≤ l.getLast hne :=
      chain'_lt_le_getLast l hch i hmem _ (List.getLast?_eq_getLast l hne)
    have h2 : l.getLast hne < i + 1 := hbound _ (List.getLast_mem hne)
    omega
  have hsplit : l = l.dropLast ++ [i] := by
    conv_lhs => rw [← List.dropLast_concat_getLast hne]
    rw [hlastval]
  have hch0 : (l.dropLast).Chain' (· < ·) := by
    rw [hsplit] at hch
    exact (List.chain'_append.mp hch).1
  have hvch' := hvch
  rw [hsplit, List.map_append, List.chain'_append] at hvch'
  have hch' := hch
  rw [hsplit, List.chain'_append] at hch'
  refine ⟨l.dropLast, hsplit, ⟨hch0, hvch'.1, ?_⟩, ?_⟩
  · intro a ha
    rcases hlast0 : l.dropLast.getLast? with _ | b
    · exact absurd (List.getLast?_eq_none_iff.mp hlast0) (List.ne_nil_of_mem ha)
    · have hab : a ≤ b := chain'_lt_le_getLast _ hch0 a ha b hlast0
      have hbi : b < i := hch'.2.2 b (by rw [hlast0]; rfl) i rfl
      omega
  · intro b hb
    refine hvch'.2.2 (seq.getD b 0) ?_ (seq.getD i 0) rfl
    rw [List.getLast?_map, Option.mem_def.mp hb]
    rfl

lemma lisSearchGo_spec (seq : List ℤ) (minIdx : List ℕ) (x : ℤ) (maxLen : ℕ)
    (mono : ∀ j j', 1 ≤ j → j ≤ j' → j' ≤ maxLen →
      seq.getD (minIdx.getD j' 0) 0 < x → seq.getD (minIdx.getD j 0) 0 < x) :
    ∀ (fuel lo hi : ℕ), hi - lo ≤ fuel → 1 ≤ lo → lo ≤ hi → hi ≤ maxLen + 1 →
      (∀ j, 1 ≤ j → j < lo → seq.getD (minIdx.getD j 0) 0 < x) →
      (∀ j, hi ≤ j → j ≤ maxLen → ¬ seq.getD (minIdx.getD j 0) 0 < x) →
      1 ≤ lisSearchGo seq minIdx x fuel lo hi ∧
      lisSearchGo seq minIdx x fuel lo hi ≤ maxLen + 1 ∧
      (∀ j, 1 ≤ j → j < lisSearchGo seq minIdx x fuel lo hi →
        seq.getD (minIdx.getD j 0) 0 < x) ∧
      (∀ j, lisSearchGo seq minIdx x fuel lo hi ≤ j → j ≤ maxLen →
        ¬ seq.getD (minIdx.getD j 0) 0 < x) := by
  intro fuel
  induction fuel with
  | zero =>
    intro lo hi hf h1 hlh hhi hbelow habove
    rw [lisSearchGo]
    exact ⟨h1, by omega, hbelow, fun j hj hjm => habove j (by omega) hjm⟩
  | succ n ih =>
    intro lo hi hf h1 hlh hhi hbelow habove
    rw [lisSearchGo]
    by_cases hlt : lo < hi
    · rw [if_pos hlt]
      dsimp only
      by_cases hp : seq.getD (minIdx.getD (lo + (hi - lo) / 2) 0) 0 < x
      · rw [if_pos hp]
        refine ih (lo + (hi - lo) / 2 + 1) hi (by omega) (by omega) (by omega)
          hhi ?_ habove
        intro j hj1 hjlt
        by_cases hjlo : j < lo
        · exact hbelow j hj1 hjlo
        · exact mono j (lo + (hi - lo) / 2) hj1 (by omega) (by omega) hp
      · rw [if_neg hp]
        refine ih lo (lo + (hi - lo) / 2) (by omega) h1 (by omega) (by omega)
          hbelow ?_
        intro j hjge hjle hPj
        exact hp (mono (lo + (hi - lo) / 2) j (by omega) (by omega) hjle hPj)
    · rw [if_neg hlt]
      exact ⟨h1, by omega, hbelow, fun j hj hjm => habove j (by omega) hjm⟩

/-- The loop invariant of `longest_increasing_subsequence` after the
first `i` elements have been processed. -/
structure LISInv (seq : List ℤ) (i : ℕ) (st : LISState) : Prop where
  minIdx_len : st.minIdx.length = seq.length + 1
  pred_len : st.pred.length = seq.length
  maxLen_le : st.maxLen ≤ i
  idx_lt : ∀ j, 1 ≤ j → j ≤ st.maxLen → st.minIdx.getD j 0 < i
  chains : ∀ j, 1 ≤ j → j ≤ st.maxLen →
    IndexChain seq i (predChainIdx st.pred j (st.minIdx.getD j 0))
  tails_sorted : ∀ j j', 1 ≤ j → j < j' → j' ≤ st.maxLen →
    seq.getD (st.minIdx.getD j 0) 0 ≤ seq.getD (st.minIdx.getD j' 0) 0
  maximal : ∀ l, IndexChain seq i l → l.length ≤ st.maxLen
  tails_min : ∀ l, IndexChain seq i l → ∀ k, l.getLast? = some k →
    seq.getD (st.minIdx.getD l.length 0) 0 ≤ seq.getD k 0

lemma lisInv_init (seq : List ℤ) :
    LISInv seq 0
      ⟨List.replicate (seq.length + 1) 0, List.replicate seq.length 0, 0⟩ := by
  refine ⟨by simp, by simp, le_rfl, ?_, ?_, ?_, ?_, ?_⟩
  · intro j hj1 hj0
    dsimp only at hj0
    omega
  · intro j hj1 hj0
    dsimp only at hj0
    exact absurd hj0 (by omega)
  · intro j j' hj1 hjj hj0
    dsimp only at hj0
    omega
  · intro l hl
    cases l with
    | nil => simp
    | cons a t =>
      exact absurd (hl.2.2 a (List.mem_cons_self _ _)) (by omega)
  · intro l hl k hk
    cases l with
    | nil => exact absurd hk (by simp)
    | cons a t =>
      exact absurd (hl.2.2 a (List.mem_cons_self _ _)) (by omega)

lemma lisStep_inv (seq : List ℤ) (i : ℕ) (st : LISState)
    (hinv : LISInv seq i st) (hi : i < seq.length) :
    LISInv seq (i + 1) (lisStep seq st i) := by
  obtain ⟨hminlen, hpredlen, hmaxle, hidx, hchains, hsorted, hmax, hmin⟩ := hinv
  have mono : ∀ j j', 1 ≤ j → j ≤ j' → j' ≤ st.maxLen →
      seq.getD (st.minIdx.getD j' 0) 0 < seq.getD i 0 →
      seq.getD (st.minIdx.getD j 0) 0 < seq.getD i 0 := by
    intro j j' h1 hjj hj' hP
    rcases eq_or_lt_of_le hjj with rfl | hlt
    · exact hP
    · exact lt_of_le_of_lt (hsorted j j' h1 hlt hj') hP
  obtain ⟨hn1, hnle, hbelowP, haboveP⟩ :=
    lisSearchGo_spec seq st.minIdx (seq.getD i 0) st.maxLen mono
      (st.maxLen + 1 - 1) 1 (st.maxLen + 1) (by omega) le_rfl (by omega) le_rfl
      (fun j hj1 hjlt => absurd hjlt (by omega))
      (fun j hjge hjle => absurd hjge (by omega))
  set newLen := lisSearchGo seq st.minIdx (seq.getD i 0) (st.maxLen + 1 - 1) 1
    (st.maxLen + 1) with hnewLen
  set minIdxN := st.minIdx.set newLen i with hminIdxN
  set predN := st.pred.set i (st.minIdx.getD (newLen - 1) 0) with hpredN
  set M := if newLen > st.maxLen then newLen else st.maxLen with hM
  have hstate : lisStep seq st i = ⟨minIdxN, predN, M⟩ := rfl
  have hMmax : M = max st.maxLen newLen := by rw [hM]; split <;> omega
  have hgetAt : minIdxN.getD newLen 0 = i :=
    getD_set_self _ _ _ (by rw [hminlen]; omega)
  have hgetNe : ∀ j, j ≠ newLen → minIdxN.getD j 0 = st.minIdx.getD j 0 :=
    fun j hj => getD_set_ne _ _ _ _ hj
  have hpredAt : predN.getD i 0 = st.minIdx.getD (newLen - 1) 0 :=
    getD_set_self _ _ _ (by rw [hpredlen]; omega)
  have hstab : ∀ j, 1 ≤ j → j ≤ st.maxLen →
      predChainIdx predN j (st.minIdx.getD j 0) =
        predChainIdx st.pred j (st.minIdx.getD j 0) := by
    intro j hj1 hjle
    refine predChainIdx_set_ne _ _ _ _ _ ?_
    intro a ha
    have := (hchains j hj1 hjle).2.2 a ha
    omega
  have hshape : predChainIdx predN newLen i =
      predChainIdx predN (newLen - 1) (st.minIdx.getD (newLen - 1) 0) ++ [i] := by
    obtain ⟨m, hm⟩ : ∃ m, newLen = m + 1 := ⟨newLen - 1, by omega⟩
    rw [hm, predChainIdx, Nat.add_sub_cancel, hpredAt,
      show newLen - 1 = m from by omega]
  have hnewChain : IndexChain seq (i + 1) (predChainIdx predN newLen i) := by
    rw [hshape]
    by_cases hone : newLen = 1
    · rw [hone]
      simp only [Nat.sub_self, predChainIdx, List.nil_append]
      exact indexChain_singleton seq (i + 1) i (by omega)
    · have hm1 : 1 ≤ newLen - 1 := by omega
      have hmle : newLen - 1 ≤ st.maxLen := by omega
      rw [hstab (newLen - 1) hm1 hmle]
      refine indexChain_snoc seq (i + 1) _ i
        (indexChain_mono seq (Nat.le_succ i) (hchains (newLen - 1) hm1 hmle))
        (by omega) ?_
      intro b hb
      rw [predChainIdx_getLast st.pred (newLen - 1) _ (by omega)] at hb
      rcases Option.mem_some_iff.mp hb with rfl
      exact ⟨hidx (newLen - 1) hm1 hmle, hbelowP (newLen - 1) hm1 (by omega)⟩
  have hrestrict : ∀ l, IndexChain seq (i + 1) l → i ∉ l → IndexChain seq i l := by
    intro l hl hmem
    refine ⟨hl.1, hl.2.1, fun a ha => ?_⟩
    have h1 := hl.2.2 a ha
    have h2 : a ≠ i := fun h => hmem (h ▸ ha)
    omega
  have key : ∀ l₀, IndexChain seq i l₀ →
      (∀ b ∈ l₀.getLast?, seq.getD b 0 < seq.getD i 0) →
      l₀.length + 1 ≤ newLen := by
    intro l₀ hl₀ hlastv
    cases l₀ with
    | nil => simpa using hn1
    | cons a t =>
      have hne : a :: t ≠ [] := by simp
      have hk := List.getLast?_eq_getLast (a :: t) hne
      have hj0 : 1 ≤ (a :: t).length := by simp
      have hjmax : (a :: t).length ≤ st.maxLen := hmax _ hl₀
      have htail : seq.getD (st.minIdx.getD (a :: t).length 0) 0 ≤
          seq.getD ((a :: t).getLast hne) 0 := hmin _ hl₀ _ hk
      have hlx : seq.getD ((a :: t).getLast hne) 0 < seq.getD i 0 :=
        hlastv _ (by rw [hk]; rfl)
      by_contra hcon
      exact haboveP (a :: t).length (by omega) hjmax (lt_of_le_of_lt htail hlx)
  rw [hstate]
  refine ⟨?_, ?_, ?_, ?_, ?_, ?_, ?_, ?_⟩
  · dsimp only
    rw [hminIdxN, List.length_set, hminlen]
  · dsimp only
    rw [hpredN, List.length_set, hpredlen]
  · dsimp only
    omega
  · dsimp only
    intro j hj1 hjle
    by_cases hj : j = newLen
    · rw [hj, hgetAt]
      omega
    · rw [hgetNe j hj]
      have : j ≤ st.maxLen := by omega
      have := hidx j hj1 this
      omega
  · dsimp only
    intro j hj1 hjle
    by_cases hj : j = newLen
    · rw [hj, hgetAt]
      exact hnewChain
    · rw [hgetNe j hj]
      have hjm : j ≤ st.maxLen := by omega
      rw [hstab j hj1 hjm]
      exact indexChain_mono seq (Nat.le_succ i) (hchains j hj1 hjm)
  · dsimp only
    intro j j' hj1 hjj hj'le
    by_cases hj' : j' = newLen
    · subst hj'
      rw [hgetAt, hgetNe j (by omega)]
      exact le_of_lt (hbelowP j hj1 hjj)
    · by_cases hj : j = newLen
      · subst hj
        rw [hgetAt, hgetNe j' hj']
        have hj'm : j' ≤ st.maxLen := by omega
        exact not_lt.mp (haboveP j' (by omega) hj'm)
      · rw [hgetNe j hj, hgetNe j' hj']
        exact hsorted j j' hj1 hjj (by omega)
  · dsimp only
    intro l hl
    by_cases hmem : i ∈ l
    · obtain ⟨l₀, rfl, hl₀, hlastv⟩ := indexChain_split_top seq i l hl hmem
      have := key l₀ hl₀ hlastv
      rw [List.length_append]
      simp only [List.length_singleton]
      omega
    · have := hmax l (hrestrict l hl hmem)
      omega
  · dsimp only
    intro l hl k hk
    by_cases hmem : i ∈ l
    · obtain ⟨l₀, rfl, hl₀, hlastv⟩ := indexChain_split_top seq i l hl hmem
      rw [List.getLast?_concat] at hk
      rcases Option.some.inj hk with rfl
      have hlen : (l₀ ++ [i]).length = l₀.length + 1 := by simp
      rw [hlen]
      have hle := key l₀ hl₀ hlastv
      by_cases heq : l₀.length + 1 = newLen
      · rw [heq, hgetAt]
      · rw [hgetNe _ heq]
        exact le_of_lt (hbelowP (l₀.length + 1) (by omega) (by omega))
    · have hl' := hrestrict l hl hmem
      have hmaxl := hmax l hl'
      by_cases heq : l.length = newLen
      · rw [heq, hgetAt]
        have h1 : ¬ seq.getD (st.minIdx.getD newLen 0) 0 < seq.getD i 0 :=
          haboveP newLen le_rfl (by omega)
        have h2 := hmin l hl' k hk
        rw [heq] at h2
        exact le_trans (not_lt.mp h1) h2
      · rw [hgetNe _ heq]
        exact hmin l hl' k hk

lemma lisLoop_inv (seq : List ℤ) : LISInv seq seq.length (lisLoop seq) := by
  have hgen : ∀ n, n ≤ seq.length →
      LISInv seq n ((List.range n).foldl (lisStep seq)
        ⟨List.replicate (seq.length + 1) 0, List.replicate seq.length 0, 0⟩) := by
    intro n
    induction n with
    | zero =>
      intro _
      exact lisInv_init seq
    | succ n ih =>
      intro hn
      rw [List.range_succ, List.foldl_append, List.foldl_cons, List.foldl_nil]
      exact lisStep_inv seq n _ (ih (by omega)) (by omega)
  exact hgen seq.length le_rfl

lemma map_getD_sublist (seq : List ℤ) (l : List ℕ)
    (hch : l.Chain' (· < ·)) (hb : ∀ j ∈ l, j < seq.length) :
    (l.map (fun j => seq.getD j 0)).Sublist seq := by
  have hpw : l.Pairwise (· < ·) := List.chain'_iff_pairwise.mp hch
  have h1 : (l.pmap (fun a ha => (⟨a, ha⟩ : Fin seq.length)) hb).map
      (fun x => seq[x]) = l.map (fun j => seq.getD j 0) := by
    rw [List.map_pmap]
    calc l.pmap (fun a h => seq[(⟨a, h⟩ : Fin seq.length)]) hb
        = l.pmap (fun a _ => seq.getD a 0) hb := by
          refine List.pmap_congr_left l ?_
          intro a ha h1 h2
          exact (List.getD_eq_getElem seq 0 h1).symm
      _ = l.map (fun j => seq.getD j 0) := List.pmap_eq_map _ _ _ _
  have h2 : (l.pmap (fun a ha => (⟨a, ha⟩ : Fin seq.length)) hb).Pairwise
      (· < ·) := by
    refine List.Pairwise.pmap hpw _ ?_
    intro a ha b hb' hab
    exact Fin.mk_lt_mk.mpr hab
  rw [← h1]
  exact List.map_getElem_sublist h2

lemma sublist_chain_exists_indexChain (seq t : List ℤ)
    (hs : t.Sublist seq) (hc : t.Chain' (· < ·)) :
    ∃ l : List ℕ, IndexChain seq seq.length l ∧ l.length = t.length := by
  rcases List.sublist_eq_map_getElem hs with ⟨is, rfl, hpw⟩
  refine ⟨is.map Fin.val, ⟨?_, ?_, ?_⟩, by simp⟩
  · rw [List.chain'_iff_pairwise, List.pairwise_map]
    exact hpw
  · have : (is.map Fin.val).map (fun j => seq.getD j 0) =
        is.map (fun x => seq[x]) := by
      rw [List.map_map]
      refine List.map_congr_left ?_
      intro a _
      exact List.getD_eq_getElem seq 0 a.isLt
    rw [this]
    exact hc
  · intro j hj
    rcases List.mem_map.mp hj with ⟨a, _, rfl⟩
    exact a.isLt

/-- C4: `longest_increasing_subsequence` returns a strictly
increasing subsequence of its input whose length is the maximum over
all strictly increasing subsequences of the input. -/
theorem longest_increasing_subsequence_spec (seq : List ℤ) :
    (longest_increasing_subsequence seq).Sublist seq
    ∧ (longest_increasing_subsequence seq).Chain' (· < ·)
    ∧ ∀ t : List ℤ, t.Sublist seq → t.Chain' (· < ·) →
        t.length ≤ (longest_increasing_subsequence seq).length := by
  have hinv := lisLoop_inv seq
  have hres : longest_increasing_subsequence seq =
      (predChainIdx (lisLoop seq).pred (lisLoop seq).maxLen
        ((lisLoop seq).minIdx.getD (lisLoop seq).maxLen 0)).map
        (fun j => seq.getD j 0) := by
    unfold longest_increasing_subsequence
    rw [lisReconstruct_eq_map]
  by_cases hzero : (lisLoop seq).maxLen = 0
  · have hnil : longest_increasing_subsequence seq = [] := by
      rw [hres, hzero]
      rfl
    rw [hnil]
    refine ⟨List.nil_sublist seq, List.chain'_nil, ?_⟩
    intro t hts htc
    rcases sublist_chain_exists_indexChain seq t hts htc with ⟨l, hl, hlen⟩
    have := hinv.maximal l hl
    simp only [List.length_nil]
    omega
  · have hmaxpos : 1 ≤ (lisLoop seq).maxLen := by omega
    have hchain := hinv.chains (lisLoop seq).maxLen hmaxpos le_rfl
    have hlenC : (predChainIdx (lisLoop seq).pred (lisLoop seq).maxLen
        ((lisLoop seq).minIdx.getD (lisLoop seq).maxLen 0)).length =
        (lisLoop seq).maxLen := predChainIdx_length _ _ _
    refine ⟨?_, ?_, ?_⟩
    · rw [hres]
      exact map_getD_sublist seq _ hchain.1 hchain.2.2
    · rw [hres]
      exact hchain.2.1
    · intro t hts htc
      rcases sublist_chain_exists_indexChain seq t hts htc with ⟨l, hl, hlen⟩
      have := hinv.maximal l hl
      rw [hres, List.length_map, hlenC]
      omega

/-- Concrete instance of `longest_increasing_subsequence_spec` at the
input `[3, 1, 2]`, which has `[1, 2]` as a longest strictly
increasing subsequence. -/
theorem longest_increasing_subsequence_spec_witness :
    (longest_increasing_subsequence [3, 1, 2]).Sublist [3, 1, 2]
    ∧ (longest_increasing_subsequence [3, 1, 2]).Chain' (· < ·)
    ∧ ([1, 2] : List ℤ).length ≤
        (longest_increasing_subsequence [3, 1, 2]).length :=
  ⟨(longest_increasing_subsequence_spec [3, 1, 2]).1,
    (longest_increasing_subsequence_spec [3, 1, 2]).2.1,
    (longest_increasing_subsequence_spec [3, 1, 2]).2.2 [1, 2]
      (List.Sublist.cons 3 (List.Sublist.refl [1, 2]))
      (List.chain'_cons.mpr ⟨by decide, List.chain'_singleton _⟩)⟩
